import Mathlib

/-!
# LBXtract: the archive parser of `lbxtract.go`

A shallow embedding of the parsing core of `src/lbxtract.go` (the functions
`decode`, `checkType`, `getMeta` and the per-archive body of `main`), and
theorems about it.

Modelling conventions.

* A byte is a `Fin 256`; a Go `[]byte` and a Go `string` are both `List Byte`
  (a Go string is an arbitrary byte sequence).
* Go `int` is taken to be 64 bits wide.  Every integer the program computes is
  below `2^32 + 20`, so `Nat` arithmetic is exact.  The two comparisons the
  source makes against `len(fileOffsets)-1` and `len(fileOffsets)-2` are made
  in `Int`, where the subtraction can go negative as it does in Go.
* The buffer `ioutil.ReadFile` returns is a `Buf`: its `len` bytes and the
  number of spare bytes of its capacity, which are zero (the array is allocated
  zeroed and only the bytes of the file are written to it).  A slice
  expression `b[lo:hi]` on it is bounds-checked against the capacity, as Go
  does for a slice of a slice, and reads the spare bytes past the length.
  `readFile` gives the capacity of Go 1.16 and later, `max (len+1) 512`, and
  `readFileLegacy` that of the earlier `ioutil.ReadFile`, `len + 512`; the
  theorems hold for every capacity.
* A run-time panic and `os.Exit(1)` are values of `Fault`; fallible code lives
  in `Except Fault`.
* The file system is outside the model: `ioutil.WriteFile` always succeeds and
  is recorded as an `Output` appended to the list of files written so far.
-/

namespace Lbxtract

set_option maxRecDepth 100000

/-- One byte. -/
abbrev Byte := Fin 256

/-- The ways the program stops abnormally. -/
inductive Fault where
  /-- Run-time panic: slice bounds out of range. -/
  | sliceBounds
  /-- Run-time panic: index out of range. -/
  | indexRange
  /-- The `os.Exit(1)` of `decode`. -/
  | exit
  deriving DecidableEq, Repr

deriving instance DecidableEq for Except

/-! ## Signatures (lines 21-30) -/

def signLBX : List Byte := [0xAD, 0xFE, 0x00, 0x00]
def signSMK : List Byte := [0x53, 0x4D, 0x4B, 0x32]
def signVOC : List Byte := [0x43, 0x72, 0x65, 0x61]
def signWAV : List Byte := [0x52, 0x49, 0x46, 0x46]
def signXMI : List Byte := [0x46, 0x4F, 0x52, 0x4D]
def signDrv : List Byte := [0x2D, 0x00, 0x43, 0x6F]
def signMO2 : List Byte := [0x00, 0x08, 0x00, 0x00]

/-! ## Go primitives used by the program -/

/-- A byte slice as `ioutil.ReadFile` returns it: the `len` bytes `data` and
`spare` further bytes of capacity behind them. -/
structure Buf where
  data : List Byte
  spare : Nat
  deriving DecidableEq, Repr

/-- The capacity of a buffer. -/
def Buf.cap (b : Buf) : Nat := b.data.length + b.spare

/-- The array a buffer points into, up to its capacity: the spare bytes are
zero. -/
def Buf.arr (b : Buf) : List Byte := b.data ++ List.replicate b.spare 0

/-- The buffer `ioutil.ReadFile` returns for a file with the bytes `data` since
Go 1.16: its capacity is the file size plus one, and at least 512. -/
def readFile (data : List Byte) : Buf := ⟨data, max 1 (512 - data.length)⟩

/-- The buffer `ioutil.ReadFile` returned before Go 1.16: its capacity is the
file size plus `bytes.MinRead = 512`. -/
def readFileLegacy (data : List Byte) : Buf := ⟨data, 512⟩

/-- The Go slice expression `b[lo:hi]` on a buffer: panics unless
`lo ≤ hi ≤ cap(b)`, and reads from the array behind the buffer. -/
def slice (b : Buf) (lo hi : Nat) : Except Fault (List Byte) :=
  if lo ≤ hi ∧ hi ≤ b.cap then .ok ((b.arr.drop lo).take (hi - lo))
  else .error .sliceBounds

/-- The Go index expression `xs[i]`: panics unless `i < len(xs)`. -/
def index {α : Type} (xs : List α) (i : Nat) : Except Fault α :=
  match xs.get? i with
  | some x => .ok x
  | none => .error .indexRange

/-- Go `bytes.Contains(b, sub)`: `sub` occurs in `b` as a contiguous run. -/
def bytesContains : List Byte → List Byte → Bool
  | [], sub => sub.isPrefixOf []
  | x :: t, sub => sub.isPrefixOf (x :: t) || bytesContains t sub

/-- Go `strings.Replace(s, old, new, -1)` for a one-byte `old`: every
occurrence of the byte `old` is replaced by the bytes `new`. -/
def stringsReplace (s : List Byte) (old : Byte) (new : List Byte) : List Byte :=
  s.flatMap (fun c => if c = old then new else [c])

/-- The value `binary.Read` with `binary.LittleEndian` assembles from the
bytes it consumes: the first byte is the least significant. -/
def littleEndian : List Byte → Nat
  | [] => 0
  | x :: t => x.val + 256 * littleEndian t

/-! ## `decode` (lines 32-55) -/

/-- The function `decode`: a 2-byte slice is read into a `uint16`, a 4-byte
slice into a `uint32`, any other length ends the run with `os.Exit(1)`. -/
def decode (b : List Byte) : Except Fault Nat :=
  if b.length = 2 then .ok (littleEndian b % 2 ^ 16)
  else if b.length = 4 then .ok (littleEndian b % 2 ^ 32)
  else .error .exit

/-! ## `checkType` (lines 57-76) -/

/-- The function `checkType`.  The cases of the `switch` are evaluated from
the top; each evaluates its own slice expression, which may panic. -/
def checkType (b : Buf) : Except Fault String := do
  let w ← slice b 8 12
  let offstart ← decode w
  let w ← slice b 0 4
  if bytesContains w signSMK then pure "SMK" else do
  let w ← slice b (offstart + 16) (offstart + 20)
  if bytesContains w signVOC then pure "VOC" else do
  let w ← slice b (offstart + 16) (offstart + 20)
  if bytesContains w signXMI then pure "XMI" else do
  let w ← slice b offstart (offstart + 4)
  if bytesContains w signDrv then pure "data+XMI" else do
  let w ← slice b offstart (offstart + 4)
  if bytesContains w signWAV then pure "WAV" else do
  let w ← slice b 2 6
  if bytesContains w signLBX then pure "LBX" else
  pure "unknown"

/-! ## `getMeta` (lines 78-104) -/

/-- The loop of `getMeta`, with `k` iterations still to run, the cursors
`nst` and `dst`, and the two slices built so far.  The cursors advance only
in the branch that reads a name and a description. -/
def getMetaLoop (b : Buf) (off : List Nat) :
    Nat → Nat → Nat → List (List Byte) → List (List Byte) →
      Except Fault (List (List Byte) × List (List Byte))
  | 0, _, _, names, desc => pure (names, desc)
  | k + 1, nst, dst, names, desc => do
    let w ← slice b 8 12
    if bytesContains w signMO2 then
      getMetaLoop b off k nst dst (names ++ [[]]) (desc ++ [[]])
    else do
      let off0 ← index off 0
      if nst ≠ off0 then do
        let n ← slice b nst (nst + 8)
        let d ← slice b dst (dst + 22)
        getMetaLoop b off k (nst + 32) (dst + 32)
          (names ++ [stringsReplace n 0 []]) (desc ++ [stringsReplace d 0 []])
      else
        getMetaLoop b off k nst dst (names ++ [[]]) (desc ++ [[]])

/-- The function `getMeta`: the names and the descriptions of `refc`
entries. -/
def getMeta (b : Buf) (refc : Nat) (off : List Nat) :
    Except Fault (List (List Byte) × List (List Byte)) :=
  getMetaLoop b off refc 512 521 [] []

/-! ## The per-archive body of `main` (lines 143-256) -/

/-- The loop of lines 147-150, with `k` iterations still to run and the
cursor `off`: each iteration appends `decode(file[off:off+4])`. -/
def readOffsets (file : Buf) : Nat → Nat → List Nat → Except Fault (List Nat)
  | 0, _, fileOffsets => pure fileOffsets
  | k + 1, off, fileOffsets => do
    let w ← slice file off (off + 4)
    let v ← decode w
    readOffsets file k (off + 4) (fileOffsets ++ [v])

/-- Lines 143-150: `refCount` and `fileOffsets`. -/
def readHeader (file : Buf) : Except Fault (Nat × List Nat) := do
  let w ← slice file 0 2
  let refCount ← decode w
  let fileOffsets ← readOffsets file refCount 8 []
  pure (refCount, fileOffsets)

/-- The digits of `strconv.Itoa`, least significant first in the recursion,
most significant first in the result; `fuel` bounds the number of digits. -/
def itoaCore : Nat → Nat → List Byte → List Byte
  | 0, _, ds => ds
  | fuel + 1, n, ds =>
    if n / 10 = 0 then Fin.ofNat (48 + n % 10) :: ds
    else itoaCore fuel (n / 10) (Fin.ofNat (48 + n % 10) :: ds)

/-- Go `strconv.Itoa` on a non-negative integer: its decimal numeral. -/
def itoa (n : Nat) : List Byte := itoaCore (n + 1) n []

/-- The string `"_"`. -/
def underscore : List Byte := [0x5F]
/-- The byte of `"/"`. -/
def slashByte : Byte := 0x2F
/-- The string `".WAV"`. -/
def extWAV : List Byte := [0x2E, 0x57, 0x41, 0x56]
/-- The string `".VOC"`. -/
def extVOC : List Byte := [0x2E, 0x56, 0x4F, 0x43]
/-- The string `".XMI"`. -/
def extXMI : List Byte := [0x2E, 0x58, 0x4D, 0x49]
/-- The string `".SMK"`. -/
def extSMK : List Byte := [0x2E, 0x53, 0x4D, 0x4B]

/-- One call of `ioutil.WriteFile`: the file name and its content. -/
structure Output where
  name : List Byte
  data : List Byte
  deriving DecidableEq, Repr

/-- The expression
`strconv.Itoa(i+1) + "_" + names[i] + "_" + strings.Replace(desc[i], "/", "_", -1) + ext`. -/
def outFileName (names desc : List (List Byte)) (i : Nat) (ext : List Byte) :
    Except Fault (List Byte) := do
  let n ← index names i
  let d ← index desc i
  pure (itoa (i + 1) ++ underscore ++ n ++ underscore ++ stringsReplace d slashByte underscore ++ ext)

/-- The upper bound the source gives the range of entry `i`: `len(file)` when
`i == len(fileOffsets)-1`, and `fileOffsets[i+1]` otherwise. -/
def entryEnd (file : Buf) (fileOffsets : List Nat) (i : Nat) : Except Fault Nat :=
  if (i : Int) = (fileOffsets.length : Int) - 1 then pure file.data.length
  else index fileOffsets (i + 1)

/-- The `switch ftype` of lines 202-255 for entry `i` at offset `v`: the file
it writes, or `none` when it writes nothing. -/
def sliceByType (file : Buf) (ftype : String) (names desc : List (List Byte))
    (fileOffsets : List Nat) (i v : Nat) : Except Fault (Option Output) :=
  if ftype = "VOC" then do
    let name ← outFileName names desc i extVOC
    let e ← entryEnd file fileOffsets i
    let outFile ← slice file (v + 16) e
    pure (some ⟨name, outFile⟩)
  else if ftype = "XMI" then do
    let name ← outFileName names desc i extXMI
    let e ← entryEnd file fileOffsets i
    let outFile ← slice file (v + 16) e
    pure (some ⟨name, outFile⟩)
  else if ftype = "data+XMI" then
    if (i : Int) = (fileOffsets.length : Int) - 2 then do
      let e ← index fileOffsets (i + 1)
      let outFile ← slice file (v + 16) e
      let name ← outFileName names desc i extXMI
      pure (some ⟨name, outFile⟩)
    else if (i : Int) = (fileOffsets.length : Int) - 1 then do
      let outFile ← slice file (v + 16) file.data.length
      let name ← outFileName names desc i extXMI
      pure (some ⟨name, outFile⟩)
    else pure none
  else if ftype = "LBX" then do
    let name ← outFileName names desc i []
    let e ← entryEnd file fileOffsets i
    let outFile ← slice file v e
    pure (some ⟨name, outFile⟩)
  else pure none

/-- The body of the loop of lines 185-256 for entry `i` at offset `v`: the
`signWAV` test of line 187 comes first and `continue`s past the `switch`. -/
def sliceEntry (file : Buf) (ftype : String) (names desc : List (List Byte))
    (fileOffsets : List Nat) (i v : Nat) : Except Fault (Option Output) := do
  let w ← slice file v (v + 4)
  if bytesContains w signWAV then do
    let name ← outFileName names desc i extWAV
    let e ← entryEnd file fileOffsets i
    let outFile ← slice file v e
    pure (some ⟨name, outFile⟩)
  else sliceByType file ftype names desc fileOffsets i v

/-- What processing one archive leaves behind: the files written, in the
order they were written, and the fault that stopped it, if one did. -/
structure Result where
  outputs : List Output
  fault : Option Fault
  deriving DecidableEq, Repr

/-- The loop `for i, v := range fileOffsets` of line 185, at index `i` with
the offsets `rest` still to visit and the files `written` so far. -/
def sliceLoop (file : Buf) (ftype : String) (names desc : List (List Byte))
    (fileOffsets : List Nat) : List Nat → Nat → List Output → Result
  | [], _, written => ⟨written, none⟩
  | v :: rest, i, written =>
    match sliceEntry file ftype names desc fileOffsets i v with
    | .error e => ⟨written, some e⟩
    | .ok none => sliceLoop file ftype names desc fileOffsets rest (i + 1) written
    | .ok (some o) => sliceLoop file ftype names desc fileOffsets rest (i + 1) (written ++ [o])

/-- The body of the loop over archives (lines 133-264) for the archive whose
upper-cased name without `.LBX` is `lbxFile` and whose content is `file`;
`file[:]` is the `len` bytes of the buffer. -/
def processArchive (lbxFile : List Byte) (file : Buf) : Result :=
  match readHeader file with
  | .error e => ⟨[], some e⟩
  | .ok (refCount, fileOffsets) =>
    match checkType file with
    | .error e => ⟨[], some e⟩
    | .ok ftype =>
      if ftype = "SMK" then ⟨[⟨lbxFile ++ extSMK, file.data⟩], none⟩
      else
        match getMeta file refCount fileOffsets with
        | .error e => ⟨[], some e⟩
        | .ok (names, desc) => sliceLoop file ftype names desc fileOffsets fileOffsets 0 []

/-- What a run over several archives leaves behind: for every archive it
started on, the archive name and the files written for it, and the fault that
stopped the run, if one did. -/
structure RunResult where
  archives : List (List Byte × List Output)
  fault : Option Fault
  deriving DecidableEq, Repr

/-- The loop `for _, v := range dirList` of lines 133-264 over the archives
`(lbxFile, file)`.  A panic inside the body is not recovered anywhere in the
program, so it ends the run: the archives that follow are not visited. -/
def runArchives : List (List Byte × Buf) → RunResult
  | [] => ⟨[], none⟩
  | (lbxFile, file) :: rest =>
    match processArchive lbxFile file with
    | ⟨outs, some e⟩ => ⟨[(lbxFile, outs)], some e⟩
    | ⟨outs, none⟩ =>
      ⟨(lbxFile, outs) :: (runArchives rest).archives, (runArchives rest).fault⟩

/-! ## Vocabulary of the statements -/

/-- The bytes `[lo, hi)` of a buffer. -/
def window (b : List Byte) (lo hi : Nat) : List Byte := (b.drop lo).take (hi - lo)

/-- The byte at position `p` of a buffer (`0` past its end). -/
def byteAt (b : List Byte) (p : Nat) : Nat := (b.getD p 0).val

/-- The unsigned little-endian value of the four bytes `[p, p+4)`. -/
def le32At (b : List Byte) (p : Nat) : Nat :=
  byteAt b p + 2 ^ 8 * byteAt b (p + 1) + 2 ^ 16 * byteAt b (p + 2) + 2 ^ 24 * byteAt b (p + 3)

/-- The unsigned little-endian value of the two bytes `[p, p+2)`. -/
def le16At (b : List Byte) (p : Nat) : Nat := byteAt b p + 2 ^ 8 * byteAt b (p + 1)

/-- The first rule of an ordered list of (test, type) pairs whose test holds,
and `dflt` when none does. -/
def firstMatch (dflt : String) : List (Bool × String) → String
  | [] => dflt
  | (c, t) :: rest => if c then t else firstMatch dflt rest

/-- The documented precedence list of the Type Classifier below its first
rule, for a buffer `b` whose first offset is `off0`. -/
def dispatchRules (b : List Byte) (off0 : Nat) : List (Bool × String) :=
  [ (decide (window b (off0 + 16) (off0 + 20) = signVOC), "VOC"),
    (decide (window b (off0 + 16) (off0 + 20) = signXMI), "XMI"),
    (decide (window b off0 (off0 + 4) = signDrv), "data+XMI"),
    (decide (window b off0 (off0 + 4) = signWAV), "WAV"),
    (decide (window b 2 6 = signLBX), "LBX") ]

/-- A byte string with every zero byte removed. -/
def stripZeros (s : List Byte) : List Byte := s.filter (fun c => c ≠ 0)

/-- The name of entry `i` by the per-entry rule: empty for the
alternate-edition signature, empty when the entry's own table position
`512+32i` is `off0`, and otherwise the window `[512+32i, 520+32i)` without its
zero bytes. -/
def perEntryName (b : List Byte) (off0 i : Nat) : List Byte :=
  if window b 8 12 = signMO2 then []
  else if 512 + 32 * i = off0 then []
  else stripZeros (window b (512 + 32 * i) (520 + 32 * i))

/-- Some table position from `nst` up to the `j`-th after it, in steps of
32, is `off0`. -/
def reached (nst off0 j : Nat) : Bool :=
  decide (nst ≤ off0 ∧ (off0 - nst) % 32 = 0 ∧ (off0 - nst) / 32 ≤ j)

/-- The name the loop of `getMeta` gives the `j`-th entry it visits from the
cursor `nst`. -/
def loopName (b : List Byte) (off0 nst j : Nat) : List Byte :=
  if reached nst off0 j then [] else stripZeros (window b (nst + 32 * j) (nst + 32 * j + 8))

/-- The description the loop of `getMeta` gives the `j`-th entry it visits
from the cursor `nst` (the description cursor is `nst + 9`). -/
def loopDesc (b : List Byte) (off0 nst j : Nat) : List Byte :=
  if reached nst off0 j then []
  else stripZeros (window b (nst + 9 + 32 * j) (nst + 9 + 32 * j + 22))

/-- A sub-archive buffer of 32 bytes: one entry at offset 12. -/
def lbxSmall : List Byte :=
  [1, 0, 0xAD, 0xFE, 0, 0, 0, 0, 12, 0, 0, 0] ++ List.replicate 20 7

/-- A header of two entries, at offsets 16 and 513, in a 16-byte buffer. -/
def headerSmall : List Byte := [2, 0, 0, 0, 0, 0, 0, 0, 16, 0, 0, 0, 1, 2, 0, 0]

/-- The upper bound of the range of entry `i`: `fileOffsets[i+1]` when `i` is
not the last index, and the buffer length when it is. -/
def endOf (file : List Byte) (fileOffsets : List Nat) (i : Nat) : Nat :=
  if i + 1 = fileOffsets.length then file.length else fileOffsets.getD (i + 1) 0

/-- The output name `{i+1}_{name}_{sanitizedDescription}{extension}` of entry
`i`. -/
def entryName (names desc : List (List Byte)) (i : Nat) (ext : List Byte) : List Byte :=
  itoa (i + 1) ++ underscore ++ names.getD i [] ++ underscore
    ++ stringsReplace (desc.getD i []) slashByte underscore ++ ext

/-- The names `getMeta` reads from `metaBuf` when the first offset is 576. -/
def metaNames : List (List Byte) := [[], [65]]

/-- The descriptions `getMeta` reads from `metaBuf` when the first offset is 576. -/
def metaDescs : List (List Byte) := [[], []]

/-- The extension of the output of entry `i` of a sub-archive: ".WAV" when
the entry carries the raw-sound signature at its own offset, none otherwise. -/
def subExt (file : List Byte) (fileOffsets : List Nat) (i : Nat) : List Byte :=
  if window file (fileOffsets.getD i 0) (fileOffsets.getD i 0 + 4) = signWAV then extWAV else []

/-- A buffer of 576 bytes: two entries, at offsets 512 and 576, the byte `A`
at position 544 and zero bytes elsewhere in the metadata region. -/
def metaBuf : List Byte :=
  [2, 0, 0, 0, 0, 0, 0, 0, 0, 2, 0, 0, 64, 2, 0, 0] ++ List.replicate 528 0 ++ [65]
    ++ List.replicate 31 0

/-- A sound-sample archive of 536 bytes: one entry at offset 512, whose
payload `Crea` followed by the bytes 1, 2, 3, 4 starts 16 bytes further. -/
def vocArc : List Byte :=
  [1, 0, 0, 0, 0, 0, 0, 0, 0, 2, 0, 0] ++ List.replicate 516 0 ++ signVOC ++ [1, 2, 3, 4]

/-- A malformed archive of 532 bytes: two entries, the first at offset 512
with the raw-sound signature, the second declared at offset 100, before the
first. -/
def wavBack : List Byte :=
  [2, 0, 0, 0, 0, 0, 0, 0, 0, 2, 0, 0, 100, 0, 0, 0] ++ List.replicate 496 0 ++ signWAV
    ++ List.replicate 16 0

/-- A sound-sample archive of 536 bytes: two entries, at offsets 512 and 537,
the second one byte past the end of the buffer; the payload `Crea` followed by
the bytes 1, 2, 3, 4 fills the bytes `[528, 536)`. -/
def vocPlus1 : List Byte :=
  [2, 0, 0, 0, 0, 0, 0, 0, 0, 2, 0, 0, 25, 2, 0, 0] ++ List.replicate 512 0 ++ signVOC
    ++ [1, 2, 3, 4]

/-- A sub-archive of 532 bytes: two entries, at offsets 512 and 533, the
second one byte past the end of the buffer; the bytes `[512, 532)` are twenty
bytes 9. -/
def lbxPlus1 : List Byte :=
  [2, 0, 0xAD, 0xFE, 0, 0, 0, 0, 0, 2, 0, 0, 21, 2, 0, 0] ++ List.replicate 496 0
    ++ List.replicate 20 9

/-- A buffer of 10 bytes that declares one entry: the four bytes of its
offset would be the bytes `[8, 12)`. -/
def headerCut : List Byte := [1, 0, 0, 0, 0, 0, 0, 0, 0, 0]

/-- A buffer of 2 bytes that declares 200 entries. -/
def headerMany : List Byte := [200, 0]

/-- A buffer of 12 bytes: one entry, at offset 1048576. -/
def classifyFar : List Byte := [1, 0, 0, 0, 0, 0, 0, 0, 0, 0, 16, 0]

/-- A sub-archive of 536 bytes: two entries, at offsets 512 and 532; the
first holds twenty bytes 9, the second holds the raw-sound signature. -/
def lbxWav : List Byte :=
  [2, 0, 0xAD, 0xFE, 0, 0, 0, 0, 0, 2, 0, 0, 20, 2, 0, 0] ++ List.replicate 496 0
    ++ List.replicate 20 9 ++ signWAV

/-- A mixed driver-and-sequence archive of 552 bytes: four entries, at
offsets 512, 516, 520 and 536; entry 0 holds the driver signature and entry 1
the raw-sound signature. -/
def mixedWav : List Byte :=
  [4, 0, 0, 0, 0, 0, 0, 0, 0, 2, 0, 0, 4, 2, 0, 0, 8, 2, 0, 0, 24, 2, 0, 0]
    ++ List.replicate 488 0 ++ signDrv ++ signWAV ++ List.replicate 32 0

/-- A mixed driver-and-sequence archive of 560 bytes: three entries, at
offsets 512, 516 and 540; entry 0 holds the driver signature and the rest of
the buffer is filled with the byte 5. -/
def mixedArc : List Byte :=
  [3, 0, 0, 0, 0, 0, 0, 0, 0, 2, 0, 0, 4, 2, 0, 0, 28, 2, 0, 0] ++ List.replicate 492 0
    ++ signDrv ++ List.replicate 44 5

/-- A stream file of 12 bytes: the stream signature and eight zero bytes. -/
def smkShort : List Byte := [0x53, 0x4D, 0x4B, 0x32, 0, 0, 0, 0, 0, 0, 0, 0]

/-- The archive name `A`. -/
def nameA : List Byte := [65]

/-- The number a string of decimal digits denotes, most significant digit
first. -/
def parseDec (ds : List Byte) : Nat := ds.foldl (fun acc c => 10 * acc + (c.val - 48)) 0

/-- The extension the `switch` on the archive type appends to an output name. -/
def typeExt (ftype : String) : List Byte :=
  if ftype = "VOC" then extVOC
  else if ftype = "XMI" ∨ ftype = "data+XMI" then extXMI
  else []

/-- The extension of the output of an entry at offset `v`: ".WAV" when the
entry carries the raw-sound signature, the extension of the archive type
otherwise. -/
def branchExt (file : List Byte) (ftype : String) (v : Nat) : List Byte :=
  if window file v (v + 4) = signWAV then extWAV else typeExt ftype

/-- The start of the range the slicer computes for entry `i` at offset `v`, by
the branch taken: `v` for a raw-sound entry and in a sub-archive, `v + 16` in a
sound-sample or music-sequence archive and for the last two entries of a mixed
archive; `none` when the branch computes no range. -/
def rangeStart (file : List Byte) (ftype : String) (fileOffsets : List Nat) (i v : Nat) :
    Option Nat :=
  if window file v (v + 4) = signWAV then some v
  else if ftype = "VOC" ∨ ftype = "XMI" then some (v + 16)
  else if ftype = "data+XMI" then
    if fileOffsets.length ≤ i + 2 then some (v + 16) else none
  else if ftype = "LBX" then some v
  else none

/-- A buffer of two zero bytes: entry count 0 and nothing else. -/
def emptyHeader : List Byte := [0, 0]

/-- An archive of 536 bytes without any signature: two entries, at offsets
512 and 16777216, the second far past the end of the buffer. -/
def unknownFar : List Byte :=
  [2, 0, 0, 0, 0, 0, 0, 0, 0, 2, 0, 0, 0, 0, 0, 1] ++ List.replicate 496 0
    ++ List.replicate 24 9

/-- An archive of 536 bytes without archive-level signature: two entries, at
offsets 512 and 532; the second holds the raw-sound signature. -/
def unknownWav : List Byte :=
  [2, 0, 0, 0, 0, 0, 0, 0, 0, 2, 0, 0, 20, 2, 0, 0] ++ List.replicate 496 0
    ++ List.replicate 20 9 ++ signWAV

/-- An archive of 536 bytes without any signature: two entries, at offsets
512 and 532, filled with the byte 9. -/
def unknownArc : List Byte :=
  [2, 0, 0, 0, 0, 0, 0, 0, 0, 2, 0, 0, 20, 2, 0, 0] ++ List.replicate 496 0
    ++ List.replicate 24 9

/-- The archive name `B`. -/
def nameB : List Byte := [66]

/-- A sub-archive of 564 bytes: one entry at offset 544, named `AB` and
described as `x/y` in the metadata table, holding twenty bytes 3. -/
def descArc : List Byte :=
  [1, 0, 0xAD, 0xFE, 0, 0, 0, 0, 0x20, 2, 0, 0] ++ List.replicate 500 0 ++ [65, 66]
    ++ List.replicate 7 0 ++ [120, 47, 121] ++ List.replicate 20 0 ++ List.replicate 20 3

/-! ## Lemmas on lists of bytes -/

theorem window_length {b : List Byte} {lo hi : Nat} (h2 : hi ≤ b.length) :
    (window b lo hi).length = hi - lo := by
  simp [window, List.length_take, List.length_drop]
  omega

theorem getD_of_lt {b : List Byte} {k : Nat} (hk : k < b.length) : b.getD k 0 = b[k] := by
  rw [List.getD_eq_getElem?_getD, List.getElem?_eq_getElem hk]
  rfl

theorem window_getElem {b : List Byte} {lo hi n : Nat} (h : n < (window b lo hi).length)
    (hb : lo + n < b.length) : (window b lo hi)[n] = b[lo + n] := by
  simp only [window, List.getElem_take, List.getElem_drop]

theorem window_four {b : List Byte} {p : Nat} (h : p + 4 ≤ b.length) :
    window b p (p + 4) = [b.getD p 0, b.getD (p + 1) 0, b.getD (p + 2) 0, b.getD (p + 3) 0] := by
  apply List.ext_getElem
  · rw [window_length h]; simp
  · intro n h1 h2
    simp only [List.length_cons, List.length_nil] at h2
    rw [window_getElem h1 (by omega)]
    rcases n with _ | _ | _ | _ | n
    · exact (getD_of_lt (by omega)).symm
    · exact (getD_of_lt (by omega)).symm
    · exact (getD_of_lt (by omega)).symm
    · exact (getD_of_lt (by omega)).symm
    · omega

theorem window_two {b : List Byte} {p : Nat} (h : p + 2 ≤ b.length) :
    window b p (p + 2) = [b.getD p 0, b.getD (p + 1) 0] := by
  apply List.ext_getElem
  · rw [window_length h]; simp
  · intro n h1 h2
    simp only [List.length_cons, List.length_nil] at h2
    rw [window_getElem h1 (by omega)]
    rcases n with _ | _ | n
    · exact (getD_of_lt (by omega)).symm
    · exact (getD_of_lt (by omega)).symm
    · omega

theorem bytesContains_short : ∀ (b sub : List Byte), b.length < sub.length →
    bytesContains b sub = false
  | [], sub, h => by
    cases sub with
    | nil => simp at h
    | cons y s => simp [bytesContains, List.isPrefixOf]
  | x :: t, sub, h => by
    have ih := bytesContains_short t sub (by simp at h; omega)
    have hp : sub.isPrefixOf (x :: t) = false := by
      rw [Bool.eq_false_iff]
      intro hp
      have := (List.isPrefixOf_iff_prefix.mp hp).length_le
      omega
    simp [bytesContains, ih, hp]

theorem bytesContains_same_length (b sub : List Byte) (h : b.length = sub.length) :
    bytesContains b sub = true ↔ b = sub := by
  cases b with
  | nil =>
    cases sub with
    | nil => simp [bytesContains]
    | cons y s => simp at h
  | cons x t =>
    have ht := bytesContains_short t sub (by simp at h; omega)
    simp only [bytesContains, ht, Bool.or_false, List.isPrefixOf_iff_prefix]
    constructor
    · intro hp
      exact (hp.eq_of_length h.symm).symm
    · intro e
      rw [e]

theorem decode_four (b0 b1 b2 b3 : Byte) :
    decode [b0, b1, b2, b3]
      = .ok (b0.val + 2 ^ 8 * b1.val + 2 ^ 16 * b2.val + 2 ^ 24 * b3.val) := by
  have h0 := b0.isLt
  have h1 := b1.isLt
  have h2 := b2.isLt
  have h3 := b3.isLt
  simp only [decode, littleEndian, List.length_cons, List.length_nil]
  simp only [Nat.reduceAdd, Nat.reduceEqDiff, if_false, if_true, Except.ok.injEq]
  rw [Nat.mod_eq_of_lt (by omega)]
  omega

theorem decode_two (b0 b1 : Byte) :
    decode [b0, b1] = .ok (b0.val + 2 ^ 8 * b1.val) := by
  have h0 := b0.isLt
  have h1 := b1.isLt
  simp only [decode, littleEndian, List.length_cons, List.length_nil]
  simp only [Nat.reduceAdd, if_true, Except.ok.injEq]
  rw [Nat.mod_eq_of_lt (by omega)]
  omega

theorem decode_window_four {b : List Byte} {p : Nat} (h : p + 4 ≤ b.length) :
    decode (window b p (p + 4)) = .ok (le32At b p) := by
  rw [window_four h, decode_four]
  rfl

theorem decode_window_two {b : List Byte} {p : Nat} (h : p + 2 ≤ b.length) :
    decode (window b p (p + 2)) = .ok (le16At b p) := by
  rw [window_two h, decode_two]
  rfl

theorem le32At_lt (b : List Byte) (p : Nat) : le32At b p < 2 ^ 32 := by
  have h0 := (b.getD p 0).isLt
  have h1 := (b.getD (p + 1) 0).isLt
  have h2 := (b.getD (p + 2) 0).isLt
  have h3 := (b.getD (p + 3) 0).isLt
  simp only [le32At, byteAt]
  omega

theorem bytesContains_window {b sig : List Byte} {lo hi : Nat} (h : hi ≤ b.length)
    (hl : hi - lo = sig.length) :
    bytesContains (window b lo hi) sig = decide (window b lo hi = sig) := by
  have hlen : (window b lo hi).length = sig.length := by rw [window_length h, hl]
  rw [Bool.eq_iff_iff, decide_eq_true_iff]
  exact bytesContains_same_length (window b lo hi) sig hlen

theorem window_size_le (b : List Byte) (lo hi : Nat) : (window b lo hi).length ≤ hi - lo := by
  simp only [window, List.length_take]
  omega

/-! ## Lemmas on the primitives -/

theorem arr_length (b : Buf) : b.arr.length = b.cap := by
  simp [Buf.arr, Buf.cap]

theorem window_arr_inside {b : Buf} {lo hi : Nat} (h : hi ≤ b.data.length) :
    window b.arr lo hi = window b.data lo hi := by
  simp only [window, Buf.arr]
  by_cases hl : lo ≤ b.data.length
  · rw [List.drop_append_of_le_length hl, List.take_append_of_le_length]
    rw [List.length_drop]
    omega
  · rw [show hi - lo = 0 by omega]
    simp

theorem getD_arr (b : Buf) (p : Nat) : b.arr.getD p 0 = b.data.getD p 0 := by
  simp only [Buf.arr, List.getD_eq_getElem?_getD, List.getElem?_append]
  by_cases hp : p < b.data.length
  · simp [hp]
  · rw [if_neg hp, List.getElem?_eq_none (l := b.data) (by omega)]
    simp only [List.getElem?_replicate, Option.getD_none]
    split <;> rfl

theorem le32At_arr (b : Buf) (p : Nat) : le32At b.arr p = le32At b.data p := by
  simp only [le32At, byteAt, getD_arr]

theorem le16At_arr (b : Buf) (p : Nat) : le16At b.arr p = le16At b.data p := by
  simp only [le16At, byteAt, getD_arr]

theorem stripZeros_window_arr (b : Buf) (lo hi : Nat) :
    stripZeros (window b.arr lo hi) = stripZeros (window b.data lo hi) := by
  simp only [window, Buf.arr, List.drop_append_eq_append_drop, List.take_append_eq_append_take,
    stripZeros, List.filter_append]
  have hz : List.filter (fun c => decide (c ≠ (0 : Byte)))
      (List.take (hi - lo - (List.drop lo b.data).length)
        (List.drop (lo - b.data.length) (List.replicate b.spare 0))) = [] := by
    rw [List.filter_eq_nil_iff]
    intro c hc
    have h1 := List.mem_of_mem_drop (List.mem_of_mem_take hc)
    have h2 := (List.mem_replicate.mp h1).2
    simp [h2]
  rw [hz, List.append_nil]

theorem filter_full {p : Byte → Bool} : ∀ (l : List Byte),
    (l.filter p).length = l.length → l.filter p = l
  | [], _ => rfl
  | x :: t, h => by
    by_cases hx : p x = true
    · simp only [List.filter_cons, hx, if_true, List.length_cons, Nat.add_right_cancel_iff] at h ⊢
      rw [filter_full t h]
    · simp only [List.filter_cons, hx, List.length_cons] at h
      have := List.length_filter_le p t
      simp only [Bool.false_eq_true, if_false] at h
      omega

theorem window_arr_sig {b : Buf} {v : Nat} {sig : List Byte} (hl : sig.length = 4)
    (hz : stripZeros sig = sig) :
    window b.arr v (v + 4) = sig ↔ window b.data v (v + 4) = sig := by
  constructor
  · intro h
    have hs : stripZeros (window b.data v (v + 4)) = sig := by
      rw [← stripZeros_window_arr, h, hz]
    have hlen : (window b.data v (v + 4)).length ≤ 4 := by
      have := window_size_le b.data v (v + 4)
      omega
    have hfl : (stripZeros (window b.data v (v + 4))).length = 4 := by rw [hs, hl]
    have hle := List.length_filter_le (fun c => decide (c ≠ (0 : Byte))) (window b.data v (v + 4))
    have : stripZeros (window b.data v (v + 4)) = window b.data v (v + 4) := by
      apply filter_full
      simp only [stripZeros] at hfl
      omega
    rw [← this, hs]
  · intro h
    have hlen : (window b.data v (v + 4)).length = 4 := by rw [h, hl]
    have hb : v + 4 ≤ b.data.length := by
      simp only [window, List.length_take, List.length_drop] at hlen
      omega
    rw [window_arr_inside hb, h]

theorem slice_cap_ok {b : Buf} {lo hi : Nat} (h1 : lo ≤ hi) (h2 : hi ≤ b.cap) :
    slice b lo hi = .ok (window b.arr lo hi) := by
  simp [slice, window, h1, h2]

theorem cap_ge (b : Buf) : b.data.length ≤ b.cap := by
  simp [Buf.cap]

theorem slice_ok {b : Buf} {lo hi : Nat} (h1 : lo ≤ hi) (h2 : hi ≤ b.data.length) :
    slice b lo hi = .ok (window b.data lo hi) := by
  rw [slice_cap_ok h1 (Nat.le_trans h2 (cap_ge b)), window_arr_inside h2]

theorem slice_eq_ok {b : Buf} {w : List Byte} {lo hi : Nat} (h : slice b lo hi = .ok w) :
    lo ≤ hi ∧ hi ≤ b.cap ∧ w = window b.arr lo hi := by
  unfold slice at h
  split at h
  · rename_i hc
    simp only [Except.ok.injEq] at h
    exact ⟨hc.1, hc.2, h.symm⟩
  · simp at h

theorem slice_bad {b : Buf} {lo hi : Nat} (h : hi < lo ∨ b.cap < hi) :
    slice b lo hi = .error .sliceBounds := by
  simp only [slice]
  rw [if_neg (by omega)]

theorem decode_slice_four {b : Buf} {p : Nat} (h : p + 4 ≤ b.cap) :
    decode (window b.arr p (p + 4)) = .ok (le32At b.data p) := by
  rw [decode_window_four (by rw [arr_length]; exact h), le32At_arr]

theorem decode_slice_two {b : Buf} {p : Nat} (h : p + 2 ≤ b.cap) :
    decode (window b.arr p (p + 2)) = .ok (le16At b.data p) := by
  rw [decode_window_two (by rw [arr_length]; exact h), le16At_arr]

theorem readOffsets_spec (file : Buf) : ∀ (k off : Nat) (acc res : List Nat),
    readOffsets file k off acc = .ok res →
      res = acc ++ (List.range k).map (fun j => le32At file.data (off + 4 * j))
      ∧ (0 < k → off + 4 * k ≤ file.cap)
  | 0, off, acc, res, h => by
    simp only [readOffsets, pure, Except.pure, Except.ok.injEq] at h
    simp [h]
  | k + 1, off, acc, res, h => by
    simp only [readOffsets, bind, Except.bind] at h
    cases hs : slice file off (off + 4) with
    | error e => simp [hs] at h
    | ok w =>
      obtain ⟨_, hb, hw⟩ := slice_eq_ok hs
      rw [hs] at h
      simp only [hw, decode_slice_four hb] at h
      obtain ⟨ih1, ih2⟩ := readOffsets_spec file k (off + 4) _ res h
      constructor
      · have e : List.map (fun j => le32At file.data (off + 4 + 4 * j)) (List.range k)
            = List.map ((fun j => le32At file.data (off + 4 * j)) ∘ Nat.succ) (List.range k) := by
          apply List.map_congr_left
          intro j _
          simp only [Function.comp, Nat.succ_eq_add_one]
          congr 1
          omega
        rw [ih1, List.range_succ_eq_map, List.map_cons, List.map_map, e]
        simp
      · intro _
        rcases Nat.eq_zero_or_pos k with hk | hk
        · subst hk; omega
        · have := ih2 hk
          omega

theorem readHeader_length {file : Buf} {refCount : Nat} {fileOffsets : List Nat}
    (h : readHeader file = .ok (refCount, fileOffsets)) : fileOffsets.length = refCount := by
  simp only [readHeader, bind, Except.bind] at h
  cases hs : slice file 0 2 with
  | error e => simp [hs] at h
  | ok w =>
    rw [hs] at h
    simp only [] at h
    cases hd : decode w with
    | error e => simp [hd] at h
    | ok n =>
      rw [hd] at h
      simp only [] at h
      cases hr : readOffsets file n 8 [] with
      | error e => simp [hr] at h
      | ok offs =>
        rw [hr] at h
        simp only [pure, Except.pure, Except.ok.injEq, Prod.mk.injEq] at h
        obtain ⟨r1, _⟩ := readOffsets_spec file _ _ _ _ hr
        rw [← h.1, ← h.2, r1]
        simp

theorem stringsReplace_zero (s : List Byte) : stringsReplace s 0 [] = stripZeros s := by
  induction s with
  | nil => rfl
  | cons x t ih =>
    simp only [stringsReplace, stripZeros, List.flatMap_cons, List.filter_cons] at ih ⊢
    by_cases hx : x = 0
    · simp [hx, ih]
    · simp [hx, ih]

theorem reached_iff (nst off0 j : Nat) :
    reached nst off0 j = true ↔ ∃ t, t ≤ j ∧ nst + 32 * t = off0 := by
  simp only [reached, decide_eq_true_iff]
  constructor
  · rintro ⟨h1, h2, h3⟩
    exact ⟨(off0 - nst) / 32, h3, by omega⟩
  · rintro ⟨t, h1, h2⟩
    refine ⟨by omega, by omega, by omega⟩

theorem reached_self (nst j : Nat) : reached nst nst j = true := by
  simp [reached]

theorem reached_step {nst off0 : Nat} (h : nst ≠ off0) (j : Nat) :
    reached (nst + 32) off0 j = reached nst off0 (j + 1) := by
  rw [Bool.eq_iff_iff, reached_iff, reached_iff]
  constructor
  · rintro ⟨t, h1, h2⟩
    exact ⟨t + 1, by omega, by omega⟩
  · rintro ⟨t, h1, h2⟩
    rcases t with _ | t
    · omega
    · exact ⟨t, by omega, by omega⟩

theorem reached_zero {nst off0 : Nat} (h : nst ≠ off0) : reached nst off0 0 = false := by
  rw [Bool.eq_false_iff, Ne, reached_iff]
  rintro ⟨t, h1, h2⟩
  omega

theorem range_succ_map {α : Type} (f : Nat → α) (k : Nat) :
    (List.range (k + 1)).map f = f 0 :: (List.range k).map (fun j => f (j + 1)) := by
  rw [List.range_succ_eq_map, List.map_cons, List.map_map]
  rfl

theorem getMetaLoop_mo2 (b : Buf) (off : List Nat) (h12 : 12 ≤ b.cap)
    (hm : bytesContains (window b.arr 8 12) signMO2 = true) :
    ∀ (k nst dst : Nat) (names desc : List (List Byte)),
      getMetaLoop b off k nst dst names desc
        = .ok (names ++ List.replicate k [], desc ++ List.replicate k [])
  | 0, nst, dst, names, desc => by simp [getMetaLoop, pure, Except.pure]
  | k + 1, nst, dst, names, desc => by
    simp only [getMetaLoop, slice_cap_ok (show 8 ≤ 12 by omega) h12, bind, Except.bind, hm, if_true]
    rw [getMetaLoop_mo2 b off h12 hm k]
    simp [List.replicate_succ]

theorem getMetaLoop_spec (b : Buf) (off : List Nat) (off0 : Nat) (h12 : 12 ≤ b.cap)
    (hm : bytesContains (window b.arr 8 12) signMO2 = false) (h0 : off.get? 0 = some off0) :
    ∀ (k nst : Nat) (names desc : List (List Byte)) (res : List (List Byte) × List (List Byte)),
      getMetaLoop b off k nst (nst + 9) names desc = .ok res →
        res.1 = names ++ (List.range k).map (loopName b.data off0 nst)
        ∧ res.2 = desc ++ (List.range k).map (loopDesc b.data off0 nst)
        ∧ (∀ j, j < k → reached nst off0 j = false → nst + 32 * j + 31 ≤ b.cap)
  | 0, nst, names, desc, res, h => by
    simp only [getMetaLoop, pure, Except.pure, Except.ok.injEq] at h
    subst h
    simp
  | k + 1, nst, names, desc, res, h => by
    simp only [getMetaLoop, slice_cap_ok (show 8 ≤ 12 by omega) h12, bind, Except.bind, hm,
      index, h0] at h
    by_cases hn : nst = off0
    · subst hn
      simp only [ne_eq, not_true_eq_false, if_false, Bool.false_eq_true] at h
      obtain ⟨r1, r2, _⟩ := getMetaLoop_spec b off nst h12 hm h0 k nst _ _ res h
      refine ⟨?_, ?_, ?_⟩
      · have c : loopName b.data nst nst = fun _ => [] :=
          funext (fun j => by simp [loopName, reached_self])
        rw [r1, range_succ_map, c]
        simp
      · have c : loopDesc b.data nst nst = fun _ => [] :=
          funext (fun j => by simp [loopDesc, reached_self])
        rw [r2, range_succ_map, c]
        simp
      · intro j _ hj
        simp [reached_self] at hj
    · simp only [ne_eq, hn, not_false_eq_true, if_true, Bool.false_eq_true, if_false] at h
      cases hs1 : slice b nst (nst + 8) with
      | error e => simp [hs1] at h
      | ok n =>
        obtain ⟨_, hb1, hn1⟩ := slice_eq_ok hs1
        rw [hs1] at h
        cases hs2 : slice b (nst + 9) (nst + 9 + 22) with
        | error e => simp [hs2] at h
        | ok d =>
          obtain ⟨_, hb2, hd2⟩ := slice_eq_ok hs2
          rw [hs2] at h
          simp only [] at h
          obtain ⟨r1, r2, r3⟩ :=
            getMetaLoop_spec b off off0 h12 hm h0 k (nst + 32) _ _ res
              (by rw [show nst + 32 + 9 = nst + 9 + 32 by omega]; exact h)
          have e1 : ∀ j, loopName b.data off0 (nst + 32) j = loopName b.data off0 nst (j + 1) := by
            intro j
            simp only [loopName, reached_step hn]
            rw [show nst + 32 + 32 * j = nst + 32 * (j + 1) by omega]
          have e2 : ∀ j, loopDesc b.data off0 (nst + 32) j = loopDesc b.data off0 nst (j + 1) := by
            intro j
            simp only [loopDesc, reached_step hn]
            rw [show nst + 32 + 9 + 32 * j = nst + 9 + 32 * (j + 1) by omega]
          refine ⟨?_, ?_, ?_⟩
          · have f1 : loopName b.data off0 nst 0 = stringsReplace n 0 [] := by
              simp [loopName, reached_zero hn, hn1, stringsReplace_zero, stripZeros_window_arr]
            rw [r1, range_succ_map, f1, funext e1]
            simp
          · have f2 : loopDesc b.data off0 nst 0 = stringsReplace d 0 [] := by
              simp [loopDesc, reached_zero hn, hd2, stringsReplace_zero, stripZeros_window_arr]
            rw [r2, range_succ_map, f2, funext e2]
            simp
          · intro j hj hr
            rcases j with _ | j
            · omega
            · have := r3 j (by omega) (by rw [reached_step hn]; exact hr)
              omega

theorem getMeta_result {b : Buf} {N : Nat} {off : List Nat}
    {names desc : List (List Byte)} (h : getMeta b N off = .ok (names, desc)) (hN : 0 < N) :
    12 ≤ b.cap
    ∧ (window b.arr 8 12 = signMO2 → names = List.replicate N [] ∧ desc = List.replicate N [])
    ∧ (window b.arr 8 12 ≠ signMO2 → ∃ off0, off.get? 0 = some off0
        ∧ names = (List.range N).map (loopName b.data off0 512)
        ∧ desc = (List.range N).map (loopDesc b.data off0 512)
        ∧ ∀ j, j < N → reached 512 off0 j = false → 512 + 32 * j + 31 ≤ b.cap) := by
  obtain ⟨k, rfl⟩ : ∃ k, N = k + 1 := ⟨N - 1, by omega⟩
  have h12 : 12 ≤ b.cap := by
    simp only [getMeta, getMetaLoop, bind, Except.bind] at h
    cases hs : slice b 8 12 with
    | error e => simp [hs] at h
    | ok w => exact (slice_eq_ok hs).2.1
  have hc : bytesContains (window b.arr 8 12) signMO2 = decide (window b.arr 8 12 = signMO2) :=
    bytesContains_window (by rw [arr_length]; exact h12) rfl
  refine ⟨h12, ?_, ?_⟩
  · intro hm
    have hm2 : bytesContains (window b.arr 8 12) signMO2 = true := by rw [hc]; simp [hm]
    have := getMetaLoop_mo2 b off h12 hm2 (k + 1) 512 521 [] []
    rw [getMeta, this] at h
    simp only [Except.ok.injEq, Prod.mk.injEq, List.nil_append] at h
    exact ⟨h.1.symm, h.2.symm⟩
  · intro hm
    have hm2 : bytesContains (window b.arr 8 12) signMO2 = false := by rw [hc]; simp [hm]
    cases h0 : off.get? 0 with
    | none =>
      simp only [getMeta, getMetaLoop, slice_cap_ok (show 8 ≤ 12 by omega) h12, bind, Except.bind,
        hm2, index, h0] at h
      simp at h
    | some off0 =>
      obtain ⟨r1, r2, r3⟩ := getMetaLoop_spec b off off0 h12 hm2 h0 (k + 1) 512 [] [] _ h
      exact ⟨off0, rfl, by simpa using r1, by simpa using r2, r3⟩

theorem getMeta_length {b : Buf} {N : Nat} {off : List Nat}
    {names desc : List (List Byte)} (h : getMeta b N off = .ok (names, desc)) :
    names.length = N ∧ desc.length = N := by
  rcases Nat.eq_zero_or_pos N with h0 | hN
  · subst h0
    simp only [getMeta, getMetaLoop, pure, Except.pure, Except.ok.injEq, Prod.mk.injEq] at h
    simp [← h.1, ← h.2]
  · obtain ⟨_, r1, r2⟩ := getMeta_result h hN
    by_cases hm : window b.arr 8 12 = signMO2
    · obtain ⟨e1, e2⟩ := r1 hm
      simp [e1, e2]
    · obtain ⟨off0, _, e1, e2, _⟩ := r2 hm
      simp [e1, e2]

theorem index_ok {α : Type} {xs : List α} {i : Nat} (d : α) (h : i < xs.length) :
    index xs i = .ok (xs.getD i d) := by
  simp [index, List.get?_eq_getElem?, List.getElem?_eq_getElem h, List.getD_eq_getElem?_getD]

theorem outFileName_ok {names desc : List (List Byte)} {i : Nat} (ext : List Byte)
    (hn : i < names.length) (hd : i < desc.length) :
    outFileName names desc i ext = .ok (entryName names desc i ext) := by
  simp only [outFileName, index_ok [] hn, index_ok [] hd, bind, Except.bind, pure, Except.pure,
    entryName]

theorem entryEnd_ok {file : Buf} {offs : List Nat} {i : Nat} (ho : i < offs.length) :
    entryEnd file offs i = .ok (endOf file.data offs i) := by
  unfold entryEnd endOf
  by_cases h : i + 1 = offs.length
  · have : (i : Int) = (offs.length : Int) - 1 := by omega
    simp [h, this, pure, Except.pure]
  · have hne : ¬ ((i : Int) = (offs.length : Int) - 1) := by omega
    simp only [hne, h, if_false]
    exact index_ok 0 (by omega)

theorem wav_arr {file : Buf} {v : Nat} :
    window file.arr v (v + 4) = signWAV ↔ window file.data v (v + 4) = signWAV :=
  window_arr_sig rfl (by decide)

theorem wav_test {file : Buf} {v : Nat} (hb : v + 4 ≤ file.cap) :
    bytesContains (window file.arr v (v + 4)) signWAV
      = decide (window file.data v (v + 4) = signWAV) := by
  rw [bytesContains_window (by rw [arr_length]; exact hb) (by simp [signWAV])]
  by_cases hc : window file.data v (v + 4) = signWAV
  · simp [hc, wav_arr.mpr hc]
  · have : ¬ window file.arr v (v + 4) = signWAV := fun h => hc (wav_arr.mp h)
    simp [hc, this]

theorem sliceEntry_inv {file : Buf} {ftype : String} {names desc : List (List Byte)}
    {offs : List Nat} {i v : Nat} {r : Option Output}
    (hn : i < names.length) (hd : i < desc.length) (ho : i < offs.length)
    (h : sliceEntry file ftype names desc offs i v = .ok r) :
    v + 4 ≤ file.cap
    ∧ ((window file.data v (v + 4) = signWAV ∧ v ≤ endOf file.data offs i
          ∧ endOf file.data offs i ≤ file.cap
          ∧ r = some ⟨entryName names desc i extWAV,
                window file.arr v (endOf file.data offs i)⟩)
       ∨ (window file.data v (v + 4) ≠ signWAV
          ∧ sliceByType file ftype names desc offs i v = .ok r)) := by
  unfold sliceEntry at h
  simp only [bind, Except.bind] at h
  cases hs : slice file v (v + 4) with
  | error e => simp [hs] at h
  | ok w =>
    obtain ⟨_, hb, hw⟩ := slice_eq_ok hs
    rw [hs] at h
    subst hw
    simp only [wav_test hb] at h
    refine ⟨hb, ?_⟩
    by_cases hc : window file.data v (v + 4) = signWAV
    · have hct : decide (window file.data v (v + 4) = signWAV) = true := by simp [hc]
      simp only [hct, if_true, outFileName_ok _ hn hd, entryEnd_ok ho] at h
      cases hs2 : slice file v (endOf file.data offs i) with
      | error e => simp [hs2] at h
      | ok d =>
        obtain ⟨h1, h2, h3⟩ := slice_eq_ok hs2
        rw [hs2] at h
        simp only [pure, Except.pure, Except.ok.injEq] at h
        exact Or.inl ⟨hc, h1, h2, by rw [← h, h3]⟩
    · have hcf : decide (window file.data v (v + 4) = signWAV) = false := by simp [hc]
      simp only [hcf, Bool.false_eq_true, if_false] at h
      exact Or.inr ⟨hc, h⟩

theorem wav_inside {file : Buf} {v : Nat} (hw : window file.data v (v + 4) = signWAV) :
    v + 4 ≤ file.data.length := by
  by_contra hc
  have hl : (window file.data v (v + 4)).length < 4 := by
    simp only [window, List.length_take, List.length_drop]
    omega
  rw [hw] at hl
  simp [signWAV] at hl

theorem sliceEntry_wav_ok {file : Buf} (ftype : String) {names desc : List (List Byte)}
    {offs : List Nat} {i v : Nat}
    (hn : i < names.length) (hd : i < desc.length) (ho : i < offs.length)
    (hw : window file.data v (v + 4) = signWAV) (h1 : v ≤ endOf file.data offs i)
    (h2 : endOf file.data offs i ≤ file.data.length) :
    sliceEntry file ftype names desc offs i v
      = .ok (some ⟨entryName names desc i extWAV,
          window file.data v (endOf file.data offs i)⟩) := by
  have hb : v + 4 ≤ file.cap := Nat.le_trans (wav_inside hw) (cap_ge file)
  have hct : bytesContains (window file.arr v (v + 4)) signWAV = true := by
    rw [wav_test hb]
    simp [hw]
  simp only [sliceEntry, slice_cap_ok (show v ≤ v + 4 by omega) hb, bind, Except.bind, hct,
    if_true, outFileName_ok _ hn hd, entryEnd_ok ho, slice_ok h1 h2, pure, Except.pure]

theorem sliceEntry_other {file : Buf} (ftype : String) (names desc : List (List Byte))
    (offs : List Nat) (i : Nat) {v : Nat}
    (hb : v + 4 ≤ file.cap) (hw : window file.data v (v + 4) ≠ signWAV) :
    sliceEntry file ftype names desc offs i v = sliceByType file ftype names desc offs i v := by
  have hcf : bytesContains (window file.arr v (v + 4)) signWAV = false := by
    rw [wav_test hb]
    simp [hw]
  simp only [sliceEntry, slice_cap_ok (show v ≤ v + 4 by omega) hb, bind, Except.bind, hcf,
    Bool.false_eq_true, if_false]

theorem sliceByType_plain_inv {file : Buf} {names desc : List (List Byte)}
    {offs : List Nat} {i v : Nat} {r : Option Output}
    (hn : i < names.length) (hd : i < desc.length) (ho : i < offs.length)
    (h : sliceByType file "LBX" names desc offs i v = .ok r) :
    v ≤ endOf file.data offs i ∧ endOf file.data offs i ≤ file.cap
    ∧ r = some ⟨entryName names desc i [], window file.arr v (endOf file.data offs i)⟩ := by
  simp only [sliceByType, show ¬ ("LBX" = "VOC") by decide, show ¬ ("LBX" = "XMI") by decide,
    show ¬ ("LBX" = "data+XMI") by decide, if_false, if_true, outFileName_ok _ hn hd,
    entryEnd_ok ho, bind, Except.bind] at h
  cases hs2 : slice file v (endOf file.data offs i) with
  | error e => simp [hs2] at h
  | ok d =>
    obtain ⟨h1, h2, h3⟩ := slice_eq_ok hs2
    rw [hs2] at h
    simp only [pure, Except.pure, Except.ok.injEq] at h
    exact ⟨h1, h2, by rw [← h, h3]⟩

theorem sliceByType_skip16_inv {file : Buf} {ftype : String}
    {names desc : List (List Byte)} {offs : List Nat} {i v : Nat} {r : Option Output}
    (ht : ftype = "VOC" ∨ ftype = "XMI")
    (hn : i < names.length) (hd : i < desc.length) (ho : i < offs.length)
    (h : sliceByType file ftype names desc offs i v = .ok r) :
    v + 16 ≤ endOf file.data offs i ∧ endOf file.data offs i ≤ file.cap
    ∧ r = some ⟨entryName names desc i (if ftype = "VOC" then extVOC else extXMI),
          window file.arr (v + 16) (endOf file.data offs i)⟩ := by
  rcases ht with rfl | rfl
  · simp only [sliceByType, if_true, outFileName_ok _ hn hd, entryEnd_ok ho, bind,
      Except.bind] at h
    cases hs2 : slice file (v + 16) (endOf file.data offs i) with
    | error e => simp [hs2] at h
    | ok d =>
      obtain ⟨h1, h2, h3⟩ := slice_eq_ok hs2
      rw [hs2] at h
      simp only [pure, Except.pure, Except.ok.injEq] at h
      exact ⟨h1, h2, by rw [← h, h3]; simp⟩
  · simp only [sliceByType, show ¬ ("XMI" = "VOC") by decide, if_false, if_true,
      outFileName_ok _ hn hd, entryEnd_ok ho, bind, Except.bind] at h
    cases hs2 : slice file (v + 16) (endOf file.data offs i) with
    | error e => simp [hs2] at h
    | ok d =>
      obtain ⟨h1, h2, h3⟩ := slice_eq_ok hs2
      rw [hs2] at h
      simp only [pure, Except.pure, Except.ok.injEq] at h
      exact ⟨h1, h2, by rw [← h, h3]; simp⟩

theorem sliceByType_mixed_inv {file : Buf} {names desc : List (List Byte)}
    {offs : List Nat} {i v : Nat} {r : Option Output}
    (hn : i < names.length) (hd : i < desc.length) (ho : i < offs.length)
    (h : sliceByType file "data+XMI" names desc offs i v = .ok r) :
    (i + 2 < offs.length → r = none)
    ∧ (offs.length ≤ i + 2 → v + 16 ≤ endOf file.data offs i ∧ endOf file.data offs i ≤ file.cap
        ∧ r = some ⟨entryName names desc i extXMI, window file.arr (v + 16) (endOf file.data offs i)⟩) := by
  simp only [sliceByType, show ¬ ("data+XMI" = "VOC") by decide,
    show ¬ ("data+XMI" = "XMI") by decide, if_false, if_true] at h
  by_cases c2 : i + 2 = offs.length
  · have e2 : (i : Int) = (offs.length : Int) - 2 := by omega
    have hend : endOf file.data offs i = offs.getD (i + 1) 0 := by
      simp only [endOf]
      rw [if_neg (by omega)]
    simp only [e2, if_true, index_ok 0 (show i + 1 < offs.length by omega), bind, Except.bind,
      outFileName_ok _ hn hd] at h
    refine ⟨fun hlt => by omega, fun _ => ?_⟩
    rw [hend]
    cases hs2 : slice file (v + 16) (offs.getD (i + 1) 0) with
    | error e =>
      rw [hs2] at h
      simp at h
    | ok d =>
      obtain ⟨h1, h2, h3⟩ := slice_eq_ok hs2
      rw [hs2] at h
      simp only [pure, Except.pure, Except.ok.injEq] at h
      exact ⟨h1, h2, by rw [← h, h3]⟩
  · have e2 : ¬ ((i : Int) = (offs.length : Int) - 2) := by omega
    simp only [e2, if_false] at h
    by_cases c1 : i + 1 = offs.length
    · have e1 : (i : Int) = (offs.length : Int) - 1 := by omega
      have hend : endOf file.data offs i = file.data.length := by
        simp only [endOf]
        rw [if_pos c1]
      simp only [e1, if_true, bind, Except.bind, outFileName_ok _ hn hd] at h
      refine ⟨fun hlt => by omega, fun _ => ?_⟩
      rw [hend]
      cases hs2 : slice file (v + 16) file.data.length with
      | error e => simp [hs2] at h
      | ok d =>
        obtain ⟨h1, h2, h3⟩ := slice_eq_ok hs2
        rw [hs2] at h
        simp only [pure, Except.pure, Except.ok.injEq] at h
        exact ⟨h1, h2, by rw [← h, h3]⟩
    · have e1 : ¬ ((i : Int) = (offs.length : Int) - 1) := by omega
      simp only [e1, if_false, pure, Except.pure, Except.ok.injEq] at h
      exact ⟨fun _ => h.symm, fun hle => by omega⟩

theorem sliceLoop_ok (file : Buf) (ftype : String) (names desc : List (List Byte))
    (offs : List Nat) : ∀ (rest : List Nat) (i : Nat) (written outs : List Output),
    sliceLoop file ftype names desc offs rest i written = ⟨outs, none⟩ →
      ∃ rs : List (Option Output), rs.length = rest.length
        ∧ (∀ j, j < rest.length →
            sliceEntry file ftype names desc offs (i + j) (rest.getD j 0) = .ok (rs.getD j none))
        ∧ outs = written ++ rs.reduceOption
  | [], i, written, outs, h => by
    simp only [sliceLoop, Result.mk.injEq, and_true] at h
    exact ⟨[], rfl, by simp, by simp [h]⟩
  | v :: rest, i, written, outs, h => by
    unfold sliceLoop at h
    cases he : sliceEntry file ftype names desc offs i v with
    | error e => simp [he] at h
    | ok r =>
      cases r with
      | none =>
        simp only [he] at h
        obtain ⟨rs, h1, h2, h3⟩ := sliceLoop_ok file ftype names desc offs rest (i + 1) _ _ h
        refine ⟨none :: rs, by simp [h1], ?_, by simp [h3]⟩
        intro j hj
        rcases j with _ | j
        · simpa using he
        · have := h2 j (by simpa using hj)
          simpa [show i + (j + 1) = i + 1 + j by omega] using this
      | some o =>
        simp only [he] at h
        obtain ⟨rs, h1, h2, h3⟩ := sliceLoop_ok file ftype names desc offs rest (i + 1) _ _ h
        refine ⟨some o :: rs, by simp [h1], ?_, by simp [h3]⟩
        intro j hj
        rcases j with _ | j
        · simpa using he
        · have := h2 j (by simpa using hj)
          simpa [show i + (j + 1) = i + 1 + j by omega] using this

theorem reduceOption_all_some {α : Type} : ∀ (rs : List (Option α)) (f : Nat → α),
    (∀ j, j < rs.length → rs.getD j none = some (f j)) →
      rs.reduceOption = (List.range rs.length).map f
  | [], f, _ => by simp
  | x :: t, f, h => by
    have h0 : x = some (f 0) := by simpa using h 0 (by simp)
    have ih := reduceOption_all_some t (fun j => f (j + 1)) (fun j hj => by
      have := h (j + 1) (by simpa using hj)
      simpa using this)
    rw [List.length_cons, range_succ_map, ← ih, h0, List.reduceOption_cons_of_some]

theorem reduceOption_last_two {α : Type} (a b : α) : ∀ (rs : List (Option α)),
    2 ≤ rs.length → (∀ j, j + 2 < rs.length → rs.getD j none = none) →
    rs.getD (rs.length - 2) none = some a → rs.getD (rs.length - 1) none = some b →
      rs.reduceOption = [a, b]
  | [], h, _, _, _ => by simp at h
  | [x], h, _, _, _ => by simp at h
  | [x, y], _, _, ha, hb => by
    simp only [List.length_cons, List.length_nil] at ha hb
    have ha2 : x = some a := by simpa using ha
    have hb2 : y = some b := by simpa using hb
    simp [ha2, hb2, List.reduceOption_cons_of_some]
  | x :: y :: z :: t, _, hnone, ha, hb => by
    have hx : x = none := by simpa using hnone 0 (by simp)
    have ih := reduceOption_last_two a b (y :: z :: t) (by simp)
      (fun j hj => by
        have := hnone (j + 1) (by simp only [List.length_cons] at hj ⊢; omega)
        simpa using this)
      (by
        simp only [List.length_cons] at ha ⊢
        rw [show t.length + 1 + 1 + 1 - 2 = (t.length + 1 + 1 - 2) + 1 by omega,
          List.getD_cons_succ] at ha
        exact ha)
      (by
        simp only [List.length_cons] at hb ⊢
        rw [show t.length + 1 + 1 + 1 - 1 = (t.length + 1 + 1 - 1) + 1 by omega,
          List.getD_cons_succ] at hb
        exact hb)
    rw [hx, List.reduceOption_cons_of_none, ih]

theorem window_append {file : List Byte} {a b c : Nat} (h1 : a ≤ b) (h2 : b ≤ c) :
    window file a b ++ window file b c = window file a c := by
  simp only [window]
  rw [show c - a = (b - a) + (c - b) by omega, List.take_add, List.drop_drop]
  rw [show a + (b - a) = b by omega]

theorem flatten_windows (file : List Byte) (g : Nat → Nat) : ∀ (n : Nat),
    (∀ i, i < n → g i ≤ g (i + 1)) →
      ((List.range n).map (fun i => window file (g i) (g (i + 1)))).flatten
        = window file (g 0) (g n)
  | 0, _ => by simp [window]
  | n + 1, h => by
    have ih := flatten_windows file g n (fun i hi => h i (by omega))
    have hmono : g 0 ≤ g n := by
      clear ih
      induction n with
      | zero => exact Nat.le_refl _
      | succ m hm => exact Nat.le_trans (hm (fun i hi => h i (by omega))) (h m (by omega))
    rw [List.range_succ, List.map_append, List.flatten_append, ih]
    simp only [List.map_cons, List.map_nil, List.flatten_cons, List.flatten_nil,
      List.append_nil]
    exact window_append hmono (h n (by omega))

theorem run_entries {lbxFile : List Byte} {file : Buf} {N : Nat} {offs : List Nat} {ftype : String}
    {outs : List Output} (hh : readHeader file = .ok (N, offs))
    (ht : checkType file = .ok ftype) (hs : ftype ≠ "SMK")
    (hp : processArchive lbxFile file = ⟨outs, none⟩) :
    ∃ (names desc : List (List Byte)) (rs : List (Option Output)),
      getMeta file N offs = .ok (names, desc)
      ∧ names.length = N ∧ desc.length = N ∧ offs.length = N ∧ rs.length = N
      ∧ (∀ j, j < N →
          sliceEntry file ftype names desc offs j (offs.getD j 0) = .ok (rs.getD j none))
      ∧ outs = rs.reduceOption := by
  have hlen : offs.length = N := readHeader_length hh
  simp only [processArchive, hh, ht, hs, if_false] at hp
  cases hm : getMeta file N offs with
  | error e => simp [hm] at hp
  | ok nd =>
    obtain ⟨names, desc⟩ := nd
    rw [hm] at hp
    simp only [] at hp
    obtain ⟨l1, l2⟩ := getMeta_length hm
    obtain ⟨rs, r1, r2, r3⟩ := sliceLoop_ok file ftype names desc offs offs 0 [] outs hp
    refine ⟨names, desc, rs, rfl, l1, l2, hlen, by rw [r1, hlen], ?_, by simpa using r3⟩
    intro j hj
    have := r2 j (by omega)
    simpa using this

theorem lbx_run {lbxFile : List Byte} {file : Buf} {N : Nat} {offs : List Nat}
    {names desc : List (List Byte)} {outs : List Output}
    (hh : readHeader file = .ok (N, offs)) (ht : checkType file = .ok "LBX")
    (hm : getMeta file N offs = .ok (names, desc))
    (hp : processArchive lbxFile file = ⟨outs, none⟩) :
    outs = (List.range N).map (fun j =>
        (⟨entryName names desc j (subExt file.data offs j),
          window file.data (offs.getD j 0) (endOf file.data offs j)⟩ : Output))
    ∧ ∀ j, j < N → offs.getD j 0 ≤ endOf file.data offs j
        ∧ endOf file.data offs j ≤ file.data.length := by
  obtain ⟨names2, desc2, rs, hm2, l1, l2, l3, hrl, hent, hout⟩ :=
    run_entries hh ht (by decide) hp
  rw [hm] at hm2
  simp only [Except.ok.injEq, Prod.mk.injEq] at hm2
  obtain ⟨rfl, rfl⟩ := hm2
  have key : ∀ j, j < N →
      rs.getD j none = some (⟨entryName names desc j (subExt file.data offs j),
          window file.arr (offs.getD j 0) (endOf file.data offs j)⟩ : Output)
      ∧ offs.getD j 0 ≤ endOf file.data offs j := by
    intro j hj
    obtain ⟨_, hcase⟩ := sliceEntry_inv (by omega) (by omega) (by omega) (hent j hj)
    rcases hcase with ⟨hc, b1, b2, hr⟩ | ⟨hc, hbt⟩
    · refine ⟨?_, b1⟩
      rw [hr]
      simp only [subExt]
      rw [if_pos hc]
    · obtain ⟨b1, b2, hr⟩ := sliceByType_plain_inv (by omega) (by omega) (by omega) hbt
      refine ⟨?_, b1⟩
      rw [hr]
      simp only [subExt]
      rw [if_neg hc]
  have chain : ∀ d j, j + d + 1 = N → endOf file.data offs j ≤ file.data.length := by
    intro d
    induction d with
    | zero =>
      intro j hj
      simp only [endOf]
      rw [if_pos (by omega)]
    | succ d ih =>
      intro j hj
      have h1 : endOf file.data offs j = offs.getD (j + 1) 0 := by
        simp only [endOf]
        rw [if_neg (by omega)]
      rw [h1]
      exact Nat.le_trans (key (j + 1) (by omega)).2 (ih (j + 1) (by omega))
  have inside : ∀ j, j < N → endOf file.data offs j ≤ file.data.length :=
    fun j hj => chain (N - 1 - j) j (by omega)
  refine ⟨?_, fun j hj => ⟨(key j hj).2, inside j hj⟩⟩
  rw [hout, ← hrl]
  apply reduceOption_all_some rs
  intro j hj
  rw [(key j (by omega)).1, window_arr_inside (inside j (by omega))]

theorem digit_val (n : Nat) : (Fin.ofNat (48 + n % 10) : Byte).val = 48 + n % 10 := by
  show (48 + n % 10) % 256 = 48 + n % 10
  omega

theorem parseDec_append_one (pre : List Byte) (c : Byte) :
    parseDec (pre ++ [c]) = 10 * parseDec pre + (c.val - 48) := by
  simp [parseDec, List.foldl_append]

theorem itoaCore_spec : ∀ (fuel n : Nat) (ds : List Byte), n < fuel →
    ∃ pre : List Byte, itoaCore fuel n ds = pre ++ ds
      ∧ (∀ c ∈ pre, 48 ≤ c.val ∧ c.val ≤ 57) ∧ parseDec pre = n
  | 0, n, ds, h => by omega
  | fuel + 1, n, ds, h => by
    by_cases h0 : n / 10 = 0
    · refine ⟨[Fin.ofNat (48 + n % 10)], by simp [itoaCore, h0], ?_, ?_⟩
      · intro c hc
        simp only [List.mem_singleton] at hc
        rw [hc, digit_val]
        omega
      · simp only [parseDec, List.foldl_cons, List.foldl_nil, digit_val]
        omega
    · obtain ⟨pre, e, hd, hp⟩ :=
        itoaCore_spec fuel (n / 10) (Fin.ofNat (48 + n % 10) :: ds) (by omega)
      refine ⟨pre ++ [Fin.ofNat (48 + n % 10)], by simp [itoaCore, h0, e], ?_, ?_⟩
      · intro c hc
        rcases List.mem_append.mp hc with hc | hc
        · exact hd c hc
        · simp only [List.mem_singleton] at hc
          rw [hc, digit_val]
          omega
      · rw [parseDec_append_one, hp, digit_val]
        omega

theorem itoa_spec (n : Nat) :
    (∀ c ∈ itoa n, 48 ≤ c.val ∧ c.val ≤ 57) ∧ parseDec (itoa n) = n := by
  obtain ⟨pre, e, hd, hp⟩ := itoaCore_spec (n + 1) n [] (by omega)
  rw [itoa, e, List.append_nil]
  exact ⟨hd, hp⟩

theorem itoa_injective {a b : Nat} (h : itoa a = itoa b) : a = b := by
  rw [← (itoa_spec a).2, ← (itoa_spec b).2, h]

theorem split_unique (u : Byte) : ∀ (a b r1 r2 : List Byte),
    (∀ c ∈ a, c ≠ u) → (∀ c ∈ b, c ≠ u) → a ++ u :: r1 = b ++ u :: r2 → a = b
  | [], [], _, _, _, _, _ => rfl
  | [], y :: b, r1, r2, _, hb, h => by
    simp only [List.nil_append, List.cons_append, List.cons.injEq] at h
    exact absurd h.1.symm (hb y (by simp))
  | x :: a, [], r1, r2, ha, _, h => by
    simp only [List.nil_append, List.cons_append, List.cons.injEq] at h
    exact absurd h.1 (ha x (by simp))
  | x :: a, y :: b, r1, r2, ha, hb, h => by
    simp only [List.cons_append, List.cons.injEq] at h
    have := split_unique u a b r1 r2 (fun c hc => ha c (by simp [hc]))
      (fun c hc => hb c (by simp [hc])) h.2
    rw [h.1, this]

theorem stringsReplace_slash (d : List Byte) :
    stringsReplace d slashByte underscore
      = d.map (fun c => if c = slashByte then (0x5F : Byte) else c) := by
  induction d with
  | nil => rfl
  | cons x t ih =>
    simp only [stringsReplace, List.flatMap_cons, List.map_cons] at ih ⊢
    rw [ih]
    by_cases hx : x = slashByte
    · simp [hx, underscore]
    · simp [hx]

theorem stripZeros_shape (w : List Byte) :
    (0 : Byte) ∉ stripZeros w ∧ (stripZeros w).length ≤ w.length := by
  constructor
  · intro h
    simp [stripZeros] at h
  · exact List.length_filter_le _ _

theorem smk_test {b : Buf} (h4 : 4 ≤ b.cap) :
    bytesContains (window b.arr 0 4) signSMK = decide (window b.data 0 4 = signSMK) := by
  have e : window b.arr 0 4 = signSMK ↔ window b.data 0 4 = signSMK :=
    window_arr_sig (v := 0) rfl (by decide)
  rw [bytesContains_window (by rw [arr_length]; exact h4) rfl]
  by_cases hc : window b.data 0 4 = signSMK
  · simp [hc, e.mpr hc]
  · have : ¬ window b.arr 0 4 = signSMK := fun h => hc (e.mp h)
    simp [hc, this]

theorem checkType_stream {b : Buf} (h12 : 12 ≤ b.cap) (hs : window b.data 0 4 = signSMK) :
    checkType b = .ok "SMK" := by
  have c0 : bytesContains (window b.arr 0 4) signSMK = true := by
    rw [smk_test (by omega)]
    simp [hs]
  simp only [checkType, slice_cap_ok (show 8 ≤ 12 by omega) h12, bind, Except.bind,
    decode_slice_four (p := 8) h12,
    slice_cap_ok (show 0 ≤ 4 by omega) (show 4 ≤ b.cap by omega), c0, if_true, pure, Except.pure]

theorem checkType_total {b : Buf} (h12 : 12 ≤ b.cap)
    (hc : window b.data 0 4 = signSMK ∨ le32At b.data 8 + 20 ≤ b.cap) :
    ∃ t, checkType b = .ok t := by
  by_cases hs : window b.data 0 4 = signSMK
  · exact ⟨_, checkType_stream h12 hs⟩
  · have hb : le32At b.data 8 + 20 ≤ b.cap := by
      rcases hc with hc | hc
      · exact absurd hc hs
      · exact hc
    simp only [checkType, slice_cap_ok (show 8 ≤ 12 by omega) h12, bind, Except.bind,
      decode_slice_four (p := 8) h12,
      slice_cap_ok (show 0 ≤ 4 by omega) (show 4 ≤ b.cap by omega),
      slice_cap_ok (show le32At b.data 8 + 16 ≤ le32At b.data 8 + 20 by omega) hb,
      slice_cap_ok (show le32At b.data 8 ≤ le32At b.data 8 + 4 by omega)
        (show le32At b.data 8 + 4 ≤ b.cap by omega),
      slice_cap_ok (show 2 ≤ 6 by omega) (show 6 ≤ b.cap by omega), pure, Except.pure]
    split_ifs <;> exact ⟨_, rfl⟩

theorem readOffsets_short (file : Buf) : ∀ (k off : Nat) (acc : List Nat),
    1 ≤ k → file.cap < off + 4 * k → readOffsets file k off acc = .error .sliceBounds
  | 0, _, _, h, _ => by omega
  | k + 1, off, acc, _, hs => by
    by_cases hb : off + 4 ≤ file.cap
    · simp only [readOffsets, slice_cap_ok (show off ≤ off + 4 by omega) hb, bind, Except.bind,
        decode_slice_four hb]
      exact readOffsets_short file k (off + 4) _ (by omega) (by omega)
    · simp only [readOffsets, slice_bad (show off + 4 < off ∨ file.cap < off + 4 by omega),
        bind, Except.bind]

theorem readHeader_facts {file : Buf} {refCount : Nat} {fileOffsets : List Nat}
    (h : readHeader file = .ok (refCount, fileOffsets)) :
    refCount = le16At file.data 0
    ∧ fileOffsets = (List.range refCount).map (fun j => le32At file.data (8 + 4 * j))
    ∧ (0 < refCount → 8 + 4 * refCount ≤ file.cap) := by
  simp only [readHeader, bind, Except.bind] at h
  cases hs : slice file 0 2 with
  | error e => simp [hs] at h
  | ok w =>
    obtain ⟨_, hb, hw⟩ := slice_eq_ok hs
    rw [hs] at h
    simp only [hw, decode_slice_two (p := 0) hb] at h
    cases hr : readOffsets file (le16At file.data 0) 8 [] with
    | error e => simp [hr] at h
    | ok offs =>
      rw [hr] at h
      simp only [pure, Except.pure, Except.ok.injEq, Prod.mk.injEq] at h
      obtain ⟨r1, r2⟩ := readOffsets_spec file _ _ _ _ hr
      rw [← h.1, ← h.2]
      exact ⟨rfl, by simpa using r1, r2⟩

theorem checkType_out_of_range {b : Buf} (h12 : 12 ≤ b.cap)
    (hs : window b.data 0 4 ≠ signSMK) (hb : b.cap < le32At b.data 8 + 20) :
    checkType b = .error .sliceBounds := by
  have c0f : bytesContains (window b.arr 0 4) signSMK = false := by
    rw [smk_test (by omega)]
    simp [hs]
  simp only [checkType, slice_cap_ok (show 8 ≤ 12 by omega) h12, bind, Except.bind,
    decode_slice_four (p := 8) h12,
    slice_cap_ok (show 0 ≤ 4 by omega) (show 4 ≤ b.cap by omega), c0f,
    slice_bad (show le32At b.data 8 + 20 < le32At b.data 8 + 16
      ∨ b.cap < le32At b.data 8 + 20 by omega)]
  simp

theorem get?_facts {offs : List Nat} {i v : Nat} (hv : offs.get? i = some v) :
    i < offs.length ∧ offs.getD i 0 = v := by
  rw [List.get?_eq_getElem?] at hv
  refine ⟨(List.getElem?_eq_some_iff.mp hv).1, ?_⟩
  rw [List.getD_eq_getElem?_getD, hv]
  rfl

theorem sliceByType_none {file : Buf} {ftype : String} (names desc : List (List Byte))
    (offs : List Nat) (i v : Nat) (h1 : ftype ≠ "VOC") (h2 : ftype ≠ "XMI")
    (h3 : ftype ≠ "data+XMI") (h4 : ftype ≠ "LBX") :
    sliceByType file ftype names desc offs i v = .ok none := by
  simp only [sliceByType, h1, h2, h3, h4, if_false, pure, Except.pure]

theorem sliceByType_name {file : Buf} {ftype : String} {names desc : List (List Byte)}
    {offs : List Nat} {i v : Nat} {o : Output}
    (hn : i < names.length) (hd : i < desc.length) (ho : i < offs.length)
    (h : sliceByType file ftype names desc offs i v = .ok (some o)) :
    o.name = entryName names desc i (typeExt ftype) := by
  by_cases h1 : ftype = "VOC"
  · subst h1
    obtain ⟨_, _, hr⟩ := sliceByType_skip16_inv (Or.inl rfl) hn hd ho h
    simp only [Option.some.injEq] at hr
    rw [hr]
    simp [typeExt]
  · by_cases h2 : ftype = "XMI"
    · subst h2
      obtain ⟨_, _, hr⟩ := sliceByType_skip16_inv (Or.inr rfl) hn hd ho h
      simp only [Option.some.injEq] at hr
      rw [hr]
      simp [typeExt]
    · by_cases h3 : ftype = "data+XMI"
      · subst h3
        obtain ⟨k1, k2⟩ := sliceByType_mixed_inv hn hd ho h
        by_cases hl : i + 2 < offs.length
        · have hk := k1 hl
          simp at hk
        · obtain ⟨_, _, hr⟩ := k2 (by omega)
          simp only [Option.some.injEq] at hr
          rw [hr]
          simp [typeExt]
      · by_cases h4 : ftype = "LBX"
        · subst h4
          obtain ⟨_, _, hr⟩ := sliceByType_plain_inv hn hd ho h
          simp only [Option.some.injEq] at hr
          rw [hr]
          simp [typeExt]
        · rw [sliceByType_none names desc offs i v h1 h2 h3 h4] at h
          simp at h

theorem sliceEntry_name {file : Buf} {ftype : String} {names desc : List (List Byte)}
    {offs : List Nat} {i v : Nat} {o : Output}
    (hn : i < names.length) (hd : i < desc.length) (ho : i < offs.length)
    (h : sliceEntry file ftype names desc offs i v = .ok (some o)) :
    o.name = entryName names desc i (branchExt file.data ftype v) := by
  obtain ⟨_, hcase⟩ := sliceEntry_inv hn hd ho h
  rcases hcase with ⟨hc, _, _, hr⟩ | ⟨hc, hbt⟩
  · simp only [Option.some.injEq] at hr
    rw [hr]
    simp only [branchExt]
    rw [if_pos hc]
  · rw [sliceByType_name hn hd ho hbt]
    simp only [branchExt]
    rw [if_neg hc]

theorem sliceLoop_none (file : Buf) (ftype : String) (names desc : List (List Byte))
    (offs : List Nat) : ∀ (rest : List Nat) (i : Nat) (written : List Output),
    (∀ j, j < rest.length →
      sliceEntry file ftype names desc offs (i + j) (rest.getD j 0) = .ok none) →
      sliceLoop file ftype names desc offs rest i written = ⟨written, none⟩
  | [], _, _, _ => rfl
  | v :: rest, i, written, h => by
    have h0 : sliceEntry file ftype names desc offs i v = .ok none := by
      simpa using h 0 (by simp)
    unfold sliceLoop
    rw [h0]
    exact sliceLoop_none file ftype names desc offs rest (i + 1) written (fun j hj => by
      have := h (j + 1) (by simpa using hj)
      simpa [show i + (j + 1) = i + 1 + j by omega] using this)

theorem run_unfold {lbxFile : List Byte} {file : Buf} {N : Nat} {offs : List Nat} {ftype : String}
    {names desc : List (List Byte)} (hh : readHeader file = .ok (N, offs))
    (ht : checkType file = .ok ftype) (hs : ftype ≠ "SMK")
    (hm : getMeta file N offs = .ok (names, desc)) :
    processArchive lbxFile file = sliceLoop file ftype names desc offs offs 0 [] := by
  simp only [processArchive, hh, ht, hs, if_false, hm]

theorem run_fault_of_entry {lbxFile : List Byte} {file : Buf} {N : Nat} {offs : List Nat}
    {ftype : String} {names desc : List (List Byte)} {i : Nat} {e : Fault}
    (hh : readHeader file = .ok (N, offs)) (ht : checkType file = .ok ftype)
    (hs : ftype ≠ "SMK") (hm : getMeta file N offs = .ok (names, desc)) (hi : i < N)
    (he : sliceEntry file ftype names desc offs i (offs.getD i 0) = .error e) :
    (processArchive lbxFile file).fault ≠ none := by
  intro hf
  have hp : processArchive lbxFile file = ⟨(processArchive lbxFile file).outputs, none⟩ := by
    rw [← hf]
  obtain ⟨names2, desc2, rs, hm2, _, _, _, _, hent, _⟩ := run_entries hh ht hs hp
  rw [hm] at hm2
  simp only [Except.ok.injEq, Prod.mk.injEq] at hm2
  obtain ⟨rfl, rfl⟩ := hm2
  have := hent i hi
  rw [he] at this
  simp at this

theorem sliceEntry_bad_range {file : Buf} {ftype : String}
    {names desc : List (List Byte)} {offs : List Nat} {i v s : Nat}
    (hn : i < names.length) (hd : i < desc.length) (ho : i < offs.length)
    (hr : rangeStart file.data ftype offs i v = some s)
    (hbad : endOf file.data offs i < s ∨ file.cap < endOf file.data offs i) :
    sliceEntry file ftype names desc offs i v = .error .sliceBounds := by
  by_cases hb : v + 4 ≤ file.cap
  · by_cases hw : window file.data v (v + 4) = signWAV
    · have hct : bytesContains (window file.arr v (v + 4)) signWAV = true := by
        rw [wav_test hb]
        simp [hw]
      simp only [rangeStart, hw, if_true, Option.some.injEq] at hr
      subst hr
      simp only [sliceEntry, slice_cap_ok (show v ≤ v + 4 by omega) hb, bind, Except.bind, hct,
        if_true, outFileName_ok _ hn hd, entryEnd_ok ho, slice_bad hbad]
    · rw [sliceEntry_other ftype names desc offs i hb hw]
      simp only [rangeStart, hw, if_false] at hr
      by_cases h1 : ftype = "VOC"
      · subst h1
        simp only [true_or, if_true, Option.some.injEq] at hr
        subst hr
        simp only [sliceByType, if_true, outFileName_ok _ hn hd, entryEnd_ok ho, bind,
          Except.bind, slice_bad hbad]
      · by_cases h2 : ftype = "XMI"
        · subst h2
          simp only [or_true, if_true, Option.some.injEq] at hr
          subst hr
          simp only [sliceByType, show ¬ ("XMI" = "VOC") by decide, if_false, if_true,
            outFileName_ok _ hn hd, entryEnd_ok ho, bind, Except.bind, slice_bad hbad]
        · simp only [h1, h2, or_self, if_false] at hr
          by_cases h3 : ftype = "data+XMI"
          · subst h3
            simp only [if_true] at hr
            by_cases hl : offs.length ≤ i + 2
            · simp only [hl, if_true, Option.some.injEq] at hr
              subst hr
              simp only [sliceByType, show ¬ ("data+XMI" = "VOC") by decide,
                show ¬ ("data+XMI" = "XMI") by decide, if_false, if_true]
              by_cases c2 : i + 2 = offs.length
              · have e2 : (i : Int) = (offs.length : Int) - 2 := by omega
                have hend : endOf file.data offs i = offs.getD (i + 1) 0 := by
                  simp only [endOf]
                  rw [if_neg (by omega)]
                rw [hend] at hbad
                simp only [e2, if_true, index_ok 0 (show i + 1 < offs.length by omega), bind,
                  Except.bind, slice_bad hbad]
              · have e2 : ¬ ((i : Int) = (offs.length : Int) - 2) := by omega
                have e1 : (i : Int) = (offs.length : Int) - 1 := by omega
                have hend : endOf file.data offs i = file.data.length := by
                  simp only [endOf]
                  rw [if_pos (by omega)]
                rw [hend] at hbad
                rw [if_neg e2, if_pos e1]
                simp only [bind, Except.bind, slice_bad hbad]
            · simp [hl] at hr
          · simp only [h3, if_false] at hr
            by_cases h4 : ftype = "LBX"
            · subst h4
              simp only [if_true, Option.some.injEq] at hr
              subst hr
              simp only [sliceByType, show ¬ ("LBX" = "VOC") by decide,
                show ¬ ("LBX" = "XMI") by decide, show ¬ ("LBX" = "data+XMI") by decide,
                if_false, if_true, outFileName_ok _ hn hd, entryEnd_ok ho, bind, Except.bind,
                slice_bad hbad]
            · simp [h4] at hr
  · simp only [sliceEntry, slice_bad (show v + 4 < v ∨ file.cap < v + 4 by omega), bind,
      Except.bind]

theorem map_getD (d : List Byte) (f : Byte → Byte) (k : Nat) (hk : k < d.length) :
    (d.map f).getD k 0 = f (d.getD k 0) := by
  rw [List.getD_eq_getElem?_getD, List.getD_eq_getElem?_getD, List.getElem?_map,
    List.getElem?_eq_getElem hk]
  rfl

/-! ## Theorems -/

/-- C7: `decode` is unsigned little-endian decoding.  A 2-byte window
`[b0,b1]` decodes to `b0 + 256*b1`, which is below `2^16`; a 4-byte window
`[b0,b1,b2,b3]` decodes to `b0 + 2^8*b1 + 2^16*b2 + 2^24*b3`, which is below
`2^32`; and `decode [a,b,0,0] = decode [a,b]`. -/
theorem decode_is_little_endian (b0 b1 b2 b3 : Byte) :
    decode [b0, b1] = .ok (b0.val + 256 * b1.val)
    ∧ b0.val + 256 * b1.val < 2 ^ 16
    ∧ decode [b0, b1, b2, b3]
        = .ok (b0.val + 2 ^ 8 * b1.val + 2 ^ 16 * b2.val + 2 ^ 24 * b3.val)
    ∧ b0.val + 2 ^ 8 * b1.val + 2 ^ 16 * b2.val + 2 ^ 24 * b3.val < 2 ^ 32
    ∧ decode [b0, b1, 0, 0] = decode [b0, b1] := by
  have h0 := b0.isLt
  have h1 := b1.isLt
  have h2 := b2.isLt
  have h3 := b3.isLt
  refine ⟨?_, by omega, decode_four b0 b1 b2 b3, by omega, ?_⟩
  · rw [decode_two]; norm_num
  · rw [decode_two, decode_four]
    simp

/-- C1: the Type Classifier is the documented ordered dispatch.  For every
buffer of at least 12 bytes, with `off0` the little-endian value of bytes
`[8,12)`: `checkType` returns "SMK" when bytes `[0,4)` are the stream
signature, whatever `off0` is; otherwise, provided `off0 + 20 ≤ len`, it
returns the type of the first rule that matches in the order VOC, XMI,
data+XMI, WAV, LBX, and "unknown" when none matches. -/
theorem checkType_ordered_dispatch (b : Buf) (h12 : 12 ≤ b.data.length) :
    (window b.data 0 4 = signSMK → checkType b = .ok "SMK")
    ∧ (window b.data 0 4 ≠ signSMK → le32At b.data 8 + 20 ≤ b.data.length →
        checkType b = .ok (firstMatch "unknown" (dispatchRules b.data (le32At b.data 8)))) := by
  have hd : decode (window b.data 8 12) = .ok (le32At b.data 8) := decode_window_four (p := 8) h12
  have c0 : bytesContains (window b.data 0 4) signSMK = decide (window b.data 0 4 = signSMK) :=
    bytesContains_window (by omega) rfl
  constructor
  · intro hs
    have c0t : bytesContains (window b.data 0 4) signSMK = true := by rw [c0]; simp [hs]
    simp only [checkType, slice_ok (show 8 ≤ 12 by omega) h12, bind, Except.bind, hd,
      slice_ok (show 0 ≤ 4 by omega) (show 4 ≤ b.data.length by omega), c0t,
      if_true, pure, Except.pure]
  · intro hs hb
    have c0f : bytesContains (window b.data 0 4) signSMK = false := by rw [c0]; simp [hs]
    have c1 : bytesContains (window b.data (le32At b.data 8 + 16) (le32At b.data 8 + 20)) signVOC
        = decide (window b.data (le32At b.data 8 + 16) (le32At b.data 8 + 20) = signVOC) :=
      bytesContains_window hb (by simp [signVOC])
    have c2 : bytesContains (window b.data (le32At b.data 8 + 16) (le32At b.data 8 + 20)) signXMI
        = decide (window b.data (le32At b.data 8 + 16) (le32At b.data 8 + 20) = signXMI) :=
      bytesContains_window hb (by simp [signXMI])
    have c3 : bytesContains (window b.data (le32At b.data 8) (le32At b.data 8 + 4)) signDrv
        = decide (window b.data (le32At b.data 8) (le32At b.data 8 + 4) = signDrv) :=
      bytesContains_window (by omega) (by simp [signDrv])
    have c4 : bytesContains (window b.data (le32At b.data 8) (le32At b.data 8 + 4)) signWAV
        = decide (window b.data (le32At b.data 8) (le32At b.data 8 + 4) = signWAV) :=
      bytesContains_window (by omega) (by simp [signWAV])
    have c5 : bytesContains (window b.data 2 6) signLBX = decide (window b.data 2 6 = signLBX) :=
      bytesContains_window (by omega) rfl
    simp only [checkType, slice_ok (show 8 ≤ 12 by omega) h12, bind, Except.bind, hd,
      slice_ok (show 0 ≤ 4 by omega) (show 4 ≤ b.data.length by omega), c0f,
      slice_ok (show le32At b.data 8 + 16 ≤ le32At b.data 8 + 20 by omega) hb,
      slice_ok (show le32At b.data 8 ≤ le32At b.data 8 + 4 by omega)
        (show le32At b.data 8 + 4 ≤ b.data.length by omega),
      slice_ok (show 2 ≤ 6 by omega) (show 6 ≤ b.data.length by omega),
      c1, c2, c3, c4, c5, pure, Except.pure, firstMatch, dispatchRules]
    split_ifs <;> simp_all

/-- Witness for C1: on a 32-byte buffer without the stream signature the
dispatch falls through to the sub-archive rule. -/
theorem checkType_ordered_dispatch_witness :
    12 ≤ lbxSmall.length ∧ window lbxSmall 0 4 ≠ signSMK
    ∧ le32At lbxSmall 8 + 20 ≤ lbxSmall.length
    ∧ checkType (readFile lbxSmall) = .ok "LBX" :=
  ⟨by decide, by decide, by decide,
    ((checkType_ordered_dispatch (readFile lbxSmall) (by decide)).2 (by decide) (by decide)).trans
      (by decide)⟩

/-- C5: the Header Reader result.  When reading the header succeeds, the entry
count is the little-endian value of bytes `[0,2)`, the offset table has exactly
that many entries, and entry `i` is the little-endian value of the four bytes
`[8+4i, 12+4i)`, all of which lie within the capacity of the buffer. -/
theorem readHeader_result (file : Buf) (refCount : Nat) (fileOffsets : List Nat)
    (h : readHeader file = .ok (refCount, fileOffsets)) :
    refCount = le16At file.data 0
    ∧ fileOffsets.length = refCount
    ∧ (∀ i, i < refCount → fileOffsets.get? i = some (le32At file.data (8 + 4 * i)))
    ∧ (∀ i, i < refCount → 12 + 4 * i ≤ file.cap) := by
  simp only [readHeader, bind, Except.bind] at h
  cases hs : slice file 0 2 with
  | error e => simp [hs] at h
  | ok w =>
    obtain ⟨_, hb, hw⟩ := slice_eq_ok hs
    rw [hs] at h
    simp only [hw, decode_slice_two (p := 0) hb] at h
    cases hr : readOffsets file (le16At file.data 0) 8 [] with
    | error e => simp [hr] at h
    | ok offs =>
      rw [hr] at h
      simp only [pure, Except.pure, Except.ok.injEq, Prod.mk.injEq] at h
      obtain ⟨h1, h2⟩ := h
      obtain ⟨r1, r2⟩ := readOffsets_spec file _ _ _ _ hr
      subst h1 h2
      refine ⟨rfl, by simp [r1], ?_, ?_⟩
      · intro i hi
        simp [r1, List.getElem?_map, List.getElem?_range hi]
      · intro i hi
        have := r2 (by omega)
        omega

/-- Witness for C5: a 16-byte buffer holding a two-entry offset table. -/
theorem readHeader_result_witness :
    readHeader (readFile headerSmall) = .ok (2, [16, 513])
    ∧ (2 = le16At headerSmall 0
      ∧ [16, 513].length = 2
      ∧ (∀ i, i < 2 → [16, 513].get? i = some (le32At headerSmall (8 + 4 * i)))
      ∧ (∀ i, i < 2 → 12 + 4 * i ≤ (readFile headerSmall).cap)) :=
  ⟨by decide, readHeader_result (readFile headerSmall) 2 [16, 513] (by decide)⟩

/-- Counterexample to C6 as stated: in `metaBuf` the table position of entry 0
is `off0 = 512`, so `getMeta` leaves its cursor there and returns an empty name
for entry 1 as well, whereas the per-entry rule reads the window `[544, 552)`
of entry 1 and yields the name `A`. -/
theorem getMeta_per_entry_rule_fails :
    getMeta (readFile metaBuf) 2 [512, 576] = .ok ([[], []], [[], []])
    ∧ window metaBuf 8 12 ≠ signMO2
    ∧ 512 + 32 * 1 ≠ 512
    ∧ perEntryName metaBuf 512 1 = [65] := by
  decide

/-- C6 (amended): the per-entry rule of the Metadata Reader.  When `getMeta`
succeeds, for every `i < N`: with the alternate-edition signature at bytes
`[8,12)` the name and the description of entry `i` are empty; otherwise (the
buffer holding its bytes `[8,12)`), with `off0` the first offset, they are
empty when some table position `512+32k` with `k ≤ i` equals `off0`, and
otherwise they are the windows `[512+32i, 520+32i)` and `[521+32i, 543+32i)`
without their zero bytes. -/
theorem getMeta_entry_rule (b : Buf) (N : Nat) (off : List Nat)
    (names desc : List (List Byte)) (h : getMeta b N off = .ok (names, desc))
    (i : Nat) (hi : i < N) :
    (window b.data 8 12 = signMO2 → names.get? i = some [] ∧ desc.get? i = some [])
    ∧ (window b.data 8 12 ≠ signMO2 → 12 ≤ b.data.length →
        ∃ off0, off.get? 0 = some off0
        ∧ ((∃ k, k ≤ i ∧ 512 + 32 * k = off0) →
            names.get? i = some [] ∧ desc.get? i = some [])
        ∧ ((¬ ∃ k, k ≤ i ∧ 512 + 32 * k = off0) →
            names.get? i = some (stripZeros (window b.data (512 + 32 * i) (520 + 32 * i)))
            ∧ desc.get? i
                = some (stripZeros (window b.data (521 + 32 * i) (543 + 32 * i))))) := by
  obtain ⟨_, r1, r2⟩ := getMeta_result h (by omega)
  constructor
  · intro hm
    have h12 : 12 ≤ b.data.length := by
      have hl : (window b.data 8 12).length = 4 := by rw [hm]; rfl
      simp only [window, List.length_take, List.length_drop] at hl
      omega
    obtain ⟨e1, e2⟩ := r1 (by rw [window_arr_inside h12]; exact hm)
    simp [e1, e2, List.getElem?_replicate, hi]
  · intro hm h12
    obtain ⟨off0, h0, e1, e2, _⟩ := r2 (by rw [window_arr_inside h12]; exact hm)
    refine ⟨off0, h0, ?_, ?_⟩
    · intro hk
      have hr := (reached_iff 512 off0 i).mpr hk
      simp [e1, e2, List.getElem?_map, List.getElem?_range hi, loopName, loopDesc, hr]
    · intro hk
      have hr : reached 512 off0 i = false := by
        rw [Bool.eq_false_iff, Ne, reached_iff]
        exact hk
      have a1 : 512 + 32 * i + 8 = 520 + 32 * i := by omega
      have a2 : 512 + 9 + 32 * i = 521 + 32 * i := by omega
      have a3 : 521 + 32 * i + 22 = 543 + 32 * i := by omega
      simp [e1, e2, List.getElem?_map, List.getElem?_range hi, loopName, loopDesc, hr, a1, a2,
        a3]

/-- Witness for C6 (amended): with first offset 576 both entries of `metaBuf`
are read from their own windows. -/
theorem getMeta_entry_rule_witness :
    getMeta (readFile metaBuf) 2 [576, 576] = .ok (metaNames, metaDescs)
    ∧ 1 < 2
    ∧ ((window metaBuf 8 12 = signMO2 →
          metaNames.get? 1 = some [] ∧ metaDescs.get? 1 = some [])
      ∧ (window metaBuf 8 12 ≠ signMO2 → 12 ≤ metaBuf.length →
          ∃ off0, [576, 576].get? 0 = some off0
          ∧ ((∃ k, k ≤ 1 ∧ 512 + 32 * k = off0) →
              metaNames.get? 1 = some [] ∧ metaDescs.get? 1 = some [])
          ∧ ((¬ ∃ k, k ≤ 1 ∧ 512 + 32 * k = off0) →
              metaNames.get? 1 = some (stripZeros (window metaBuf (512 + 32 * 1) (520 + 32 * 1)))
              ∧ metaDescs.get? 1
                  = some (stripZeros (window metaBuf (521 + 32 * 1) (543 + 32 * 1)))))) :=
  ⟨by decide, by decide,
    getMeta_entry_rule (readFile metaBuf) 2 [576, 576] metaNames metaDescs (by decide) 1
      (by decide)⟩

/-- Counterexample to C2 as stated: in the sound-sample archive `vocPlus1` the
slicing step of entry 0 succeeds, under the capacity of either `ReadFile`,
although the next offset 537 lies one byte past the 536 bytes of the buffer:
the file written holds nine bytes, the eight bytes `[528, 536)` of the buffer
and one spare byte of its capacity. -/
theorem sound_entry_past_buffer :
    readHeader (readFile vocPlus1) = .ok (2, [512, 537])
    ∧ checkType (readFile vocPlus1) = .ok "VOC"
    ∧ vocPlus1.length = 536
    ∧ window vocPlus1 512 (512 + 4) ≠ signWAV
    ∧ sliceEntry (readFile vocPlus1) "VOC" [[], []] [[], []] [512, 537] 0 512
        = .ok (some ⟨[49, 95, 95] ++ extVOC, signVOC ++ [1, 2, 3, 4, 0]⟩)
    ∧ sliceEntry (readFileLegacy vocPlus1) "VOC" [[], []] [[], []] [512, 537] 0 512
        = .ok (some ⟨[49, 95, 95] ++ extVOC, signVOC ++ [1, 2, 3, 4, 0]⟩)
    ∧ window vocPlus1 (512 + 16) (endOf vocPlus1 [512, 537] 0) = signVOC ++ [1, 2, 3, 4]
    ∧ (processArchive nameA (readFile vocPlus1)).outputs
        = [⟨[49, 95, 95] ++ extVOC, signVOC ++ [1, 2, 3, 4, 0]⟩] := by
  decide

/-- C2 (amended): the sound-sample / music-sequence branch of the Resource Slicer.  In
an archive classified "VOC" or "XMI", for an entry `i` at offset `v` whose four
bytes at `v` are not the raw-sound signature: if the slicing step of entry `i`
succeeds and `end ≤ len(buffer)`, it writes exactly one file, whose bytes are
`buffer[v+16, end)` with `end` the next offset (the buffer length for the last
entry) and whose name ends in ".VOC" for a VOC archive and ".XMI" for an XMI
archive; and that file is among the files of every run of the archive that
ends without a fault. -/
theorem sound_music_entry (file : Buf) (N : Nat) (offs : List Nat) (ftype : String)
    (names desc : List (List Byte)) (i v : Nat) (r : Option Output)
    (hh : readHeader file = .ok (N, offs)) (ht : checkType file = .ok ftype)
    (hty : ftype = "VOC" ∨ ftype = "XMI")
    (hm : getMeta file N offs = .ok (names, desc))
    (hv : offs.get? i = some v) (hw : window file.data v (v + 4) ≠ signWAV)
    (he : endOf file.data offs i ≤ file.data.length)
    (hs : sliceEntry file ftype names desc offs i v = .ok r) :
    ∃ name : List Byte,
      r = some ⟨name, window file.data (v + 16) (endOf file.data offs i)⟩
      ∧ (ftype = "VOC" → extVOC <:+ name)
      ∧ (ftype = "XMI" → extXMI <:+ name)
      ∧ ∀ (lbxFile : List Byte) (outs : List Output),
          processArchive lbxFile file = ⟨outs, none⟩ →
            (⟨name, window file.data (v + 16) (endOf file.data offs i)⟩ : Output) ∈ outs := by
  have hlen : offs.length = N := readHeader_length hh
  obtain ⟨l1, l2⟩ := getMeta_length hm
  have hi : i < offs.length := by
    rw [List.get?_eq_getElem?] at hv
    exact (List.getElem?_eq_some_iff.mp hv).1
  have hvd : offs.getD i 0 = v := by
    rw [List.getD_eq_getElem?_getD, ← List.get?_eq_getElem?, hv]
    rfl
  obtain ⟨_, hcase⟩ := sliceEntry_inv (by omega) (by omega) hi hs
  rcases hcase with ⟨hc, _⟩ | ⟨_, hbt⟩
  · exact absurd hc hw
  · obtain ⟨_, _, hr⟩ := sliceByType_skip16_inv hty (by omega) (by omega) hi hbt
    rw [window_arr_inside he] at hr
    refine ⟨_, hr, ?_, ?_, ?_⟩
    · intro e
      simp only [e, if_true, entryName]
      exact List.suffix_append _ _
    · intro e
      simp only [e, show ¬ ("XMI" = "VOC") by decide, if_false, entryName]
      exact List.suffix_append _ _
    · intro lbxFile outs hp
      have hsmk : ftype ≠ "SMK" := by
        rcases hty with rfl | rfl <;> decide
      obtain ⟨names2, desc2, rs, hm2, _, _, _, hrl, hent, hout⟩ := run_entries hh ht hsmk hp
      rw [hm] at hm2
      simp only [Except.ok.injEq, Prod.mk.injEq] at hm2
      obtain ⟨rfl, rfl⟩ := hm2
      have hj := hent i (by omega)
      rw [hvd, hs, Except.ok.injEq, hr] at hj
      rw [hout, List.reduceOption_mem_iff, hj]
      have hir : i < rs.length := by omega
      rw [List.getD_eq_getElem?_getD, List.getElem?_eq_getElem hir]
      exact List.getElem_mem _

/-- Witness for C2: the one entry of the sound-sample archive `vocArc`. -/
theorem sound_music_entry_witness :
    ∃ name : List Byte,
      some (⟨[49, 95, 95, 46, 86, 79, 67], [67, 114, 101, 97, 1, 2, 3, 4]⟩ : Output)
        = some ⟨name, window vocArc (512 + 16) (endOf vocArc [512] 0)⟩
      ∧ ("VOC" = "VOC" → extVOC <:+ name)
      ∧ ("VOC" = "XMI" → extXMI <:+ name)
      ∧ ∀ (lbxFile : List Byte) (outs : List Output),
          processArchive lbxFile (readFile vocArc) = ⟨outs, none⟩ →
            (⟨name, window vocArc (512 + 16) (endOf vocArc [512] 0)⟩ : Output) ∈ outs :=
  sound_music_entry (readFile vocArc) 1 [512] "VOC" [[]] [[]] 0 512
    (some ⟨[49, 95, 95, 46, 86, 79, 67], [67, 114, 101, 97, 1, 2, 3, 4]⟩)
    (by decide) (by decide) (Or.inl rfl) (by decide) (by decide) (by decide) (by decide)
    (by decide)

/-- Counterexample to C3 as stated: in the malformed archive `wavBack` entry 0
carries the raw-sound signature at its offset 512, but its range ends at the
declared offset 100 of entry 1, before its start; the slicing step of entry 0
panics and the run writes no file, under the capacity of either `ReadFile`. -/
theorem raw_sound_entry_without_output :
    readHeader (readFile wavBack) = .ok (2, [512, 100])
    ∧ checkType (readFile wavBack) = .ok "WAV"
    ∧ getMeta (readFile wavBack) 2 [512, 100] = .ok ([[], []], [[], []])
    ∧ window wavBack 512 (512 + 4) = signWAV
    ∧ sliceEntry (readFile wavBack) "WAV" [[], []] [[], []] [512, 100] 0 512
        = .error .sliceBounds
    ∧ processArchive nameA (readFile wavBack) = ⟨[], some .sliceBounds⟩
    ∧ processArchive nameA (readFileLegacy wavBack) = ⟨[], some .sliceBounds⟩ := by
  decide

/-- C3 (amended): the entry-level raw-sound override.  Whatever the archive
type, for an entry `i` at offset `v` whose bytes `[v, v+4)` are the raw-sound
signature and whose range is valid (`v ≤ end ≤ len(buffer)`), the slicing step
of entry `i` writes exactly one file, whose bytes are `buffer[v, end)` with no
header skip and whose name ends in ".WAV"; every entry without the signature at
its own offset is handled by the `switch` on the archive type. -/
theorem raw_sound_override (file : Buf) (offs : List Nat) (ftype : String)
    (names desc : List (List Byte)) (i v : Nat)
    (hm : getMeta file offs.length offs = .ok (names, desc))
    (hv : offs.get? i = some v) (hw : window file.data v (v + 4) = signWAV)
    (h1 : v ≤ endOf file.data offs i) (h2 : endOf file.data offs i ≤ file.data.length) :
    sliceEntry file ftype names desc offs i v
        = .ok (some ⟨entryName names desc i extWAV, window file.data v (endOf file.data offs i)⟩)
    ∧ extWAV <:+ entryName names desc i extWAV
    ∧ ∀ j w, offs.get? j = some w → w + 4 ≤ file.data.length →
        window file.data w (w + 4) ≠ signWAV →
        sliceEntry file ftype names desc offs j w
          = sliceByType file ftype names desc offs j w := by
  obtain ⟨l1, l2⟩ := getMeta_length hm
  have hi : i < offs.length := by
    rw [List.get?_eq_getElem?] at hv
    exact (List.getElem?_eq_some_iff.mp hv).1
  refine ⟨sliceEntry_wav_ok ftype (by omega) (by omega) hi hw h1 h2, ?_, ?_⟩
  · simp only [entryName]
    exact List.suffix_append _ _
  · intro j w _ hb hne
    exact sliceEntry_other ftype names desc offs j (Nat.le_trans hb (cap_ge file)) hne

/-- Witness for C3 (amended): entry 1 of the sub-archive `lbxWav`. -/
theorem raw_sound_override_witness :
    sliceEntry (readFile lbxWav) "LBX" [[], []] [[], []] [512, 532] 1 532
        = .ok (some ⟨entryName [[], []] [[], []] 1 extWAV,
            window lbxWav 532 (endOf lbxWav [512, 532] 1)⟩)
    ∧ extWAV <:+ entryName [[], []] [[], []] 1 extWAV
    ∧ ∀ j w, [512, 532].get? j = some w → w + 4 ≤ lbxWav.length →
        window lbxWav w (w + 4) ≠ signWAV →
        sliceEntry (readFile lbxWav) "LBX" [[], []] [[], []] [512, 532] j w
          = sliceByType (readFile lbxWav) "LBX" [[], []] [[], []] [512, 532] j w :=
  raw_sound_override (readFile lbxWav) [512, 532] "LBX" [[], []] [[], []] 1 532
    (by decide) (by decide) (by decide) (by decide) (by decide)

/-- C8 (failing input): the 12-byte buffer `smkShort` starts with the stream
signature and `checkType` classifies it "SMK", yet processing it writes no file:
bytes `[0,2)` of the signature are read as the entry count 19795 and the loop
that reads the offset table panics, under the capacity of either `ReadFile`,
before the classification is made. -/
theorem stream_short_buffer_fails :
    window smkShort 0 4 = signSMK
    ∧ checkType (readFile smkShort) = .ok "SMK"
    ∧ le16At smkShort 0 = 19795
    ∧ readHeader (readFile smkShort) = .error .sliceBounds
    ∧ processArchive nameA (readFile smkShort) = ⟨[], some .sliceBounds⟩
    ∧ processArchive nameA (readFileLegacy smkShort) = ⟨[], some .sliceBounds⟩ := by
  decide

/-- C4: sub-archive extraction reconstructs the resource region.  For a
buffer classified "LBX" with `N ≥ 1` entries that is processed without a fault,
there are `N` outputs, output `i` is the byte range `buffer[offset[i], end)`
with `end` the next offset (the buffer length for the last entry), the offsets
are non-decreasing, and the concatenation of the outputs in index order is
`buffer[offset[0], len(buffer))`. -/
theorem subarchive_reconstructs (lbxFile : List Byte) (file : Buf) (N : Nat) (offs : List Nat)
    (outs : List Output) (hh : readHeader file = .ok (N, offs))
    (ht : checkType file = .ok "LBX") (hN : 1 ≤ N)
    (hp : processArchive lbxFile file = ⟨outs, none⟩) :
    outs.length = N
    ∧ (∀ i, i < N → (outs.get? i).map Output.data
          = some (window file.data (offs.getD i 0) (endOf file.data offs i)))
    ∧ (∀ i, i + 1 < N → offs.getD i 0 ≤ offs.getD (i + 1) 0)
    ∧ (outs.map Output.data).flatten = file.data.drop (offs.getD 0 0) := by
  have hlen : offs.length = N := readHeader_length hh
  obtain ⟨names, desc, rs, hm, _⟩ := run_entries hh ht (by decide) hp
  obtain ⟨hout, hb⟩ := lbx_run hh ht hm hp
  have hend : ∀ i, i + 1 < N → endOf file.data offs i = offs.getD (i + 1) 0 := by
    intro i hi
    simp only [endOf]
    rw [if_neg (by omega)]
  have hlast : ∀ i, i + 1 = N → endOf file.data offs i = file.data.length := by
    intro i hi
    simp only [endOf]
    rw [if_pos (by omega)]
  refine ⟨by simp [hout], ?_, ?_, ?_⟩
  · intro i hi
    simp [hout, List.getElem?_map, List.getElem?_range hi]
  · intro i hi
    have := (hb i (by omega)).1
    rwa [hend i hi] at this
  · let g : Nat → Nat := fun i => if i < N then offs.getD i 0 else file.data.length
    have hg : ∀ i, i < N →
        window file.data (offs.getD i 0) (endOf file.data offs i) = window file.data (g i) (g (i + 1)) := by
      intro i hi
      simp only [g, if_pos hi]
      by_cases hl : i + 1 < N
      · rw [if_pos hl, hend i hl]
      · rw [if_neg hl, hlast i (by omega)]
    have hmono : ∀ i, i < N → g i ≤ g (i + 1) := by
      intro i hi
      have := (hb i hi).1
      simp only [g, if_pos hi]
      by_cases hl : i + 1 < N
      · rw [if_pos hl, ← hend i hl]; exact this
      · rw [if_neg hl, ← hlast i (by omega)]; exact this
    have e : outs.map Output.data
        = (List.range N).map (fun i => window file.data (g i) (g (i + 1))) := by
      rw [hout, List.map_map]
      apply List.map_congr_left
      intro i hi
      simpa using hg i (List.mem_range.mp hi)
    rw [e, flatten_windows file.data g N hmono]
    simp only [g, if_pos (show 0 < N by omega), if_neg (show ¬ N < N by omega), window]
    rw [List.take_of_length_le]
    simp

/-- Witness for C4: the sub-archive `lbxWav`, whose two outputs are the ranges
`[512, 532)` and `[532, 536)`. -/
theorem subarchive_reconstructs_witness :
    processArchive nameA (readFile lbxWav)
        = ⟨[⟨[49, 95, 95], List.replicate 20 9⟩, ⟨[50, 95, 95, 46, 87, 65, 86], signWAV⟩],
            none⟩
    ∧ ([⟨[49, 95, 95], List.replicate 20 9⟩,
          ⟨[50, 95, 95, 46, 87, 65, 86], signWAV⟩] : List Output).length = 2
    ∧ (∀ i, i < 2 → (([⟨[49, 95, 95], List.replicate 20 9⟩,
          ⟨[50, 95, 95, 46, 87, 65, 86], signWAV⟩] : List Output).get? i).map Output.data
          = some (window lbxWav (([512, 532] : List Nat).getD i 0)
              (endOf lbxWav [512, 532] i)))
    ∧ (∀ i, i + 1 < 2 → ([512, 532] : List Nat).getD i 0 ≤ ([512, 532] : List Nat).getD (i + 1) 0)
    ∧ (([⟨[49, 95, 95], List.replicate 20 9⟩,
          ⟨[50, 95, 95, 46, 87, 65, 86], signWAV⟩] : List Output).map Output.data).flatten
        = lbxWav.drop (([512, 532] : List Nat).getD 0 0) :=
  ⟨by decide,
    subarchive_reconstructs nameA (readFile lbxWav) 2 [512, 532] _ (by decide) (by decide) (by decide)
      (by decide)⟩

/-- Counterexample to C10 as stated: the buffer `lbxWav` is classified "LBX"
and is processed without a fault, but its entry 1 carries the raw-sound
signature at its own offset, so the second output is named `2__.WAV`, with an
extension, and not `2__`. -/
theorem subarchive_name_with_extension :
    checkType (readFile lbxWav) = .ok "LBX"
    ∧ getMeta (readFile lbxWav) 2 [512, 532] = .ok ([[], []], [[], []])
    ∧ processArchive nameA (readFile lbxWav)
        = ⟨[⟨[49, 95, 95], List.replicate 20 9⟩, ⟨[50, 95, 95] ++ extWAV, signWAV⟩], none⟩
    ∧ entryName [[], []] [[], []] 1 [] = [50, 95, 95]
    ∧ [50, 95, 95] ++ extWAV ≠ entryName [[], []] [[], []] 1 [] := by
  decide

/-- C10 (amended): sub-archive output count and naming.  For a buffer
classified "LBX" with `N` entries that is processed without a fault, exactly
`N` outputs are produced, one per entry; the name of output `i` begins with the
decimal numeral of `i+1` followed by "_", and is exactly
`{i+1}_{name}_{sanitizedDescription}` with nothing appended, except for the
entries that carry the raw-sound signature at their own offset, whose name has
".WAV" appended. -/
theorem subarchive_names (lbxFile : List Byte) (file : Buf) (N : Nat) (offs : List Nat)
    (names desc : List (List Byte)) (outs : List Output)
    (hh : readHeader file = .ok (N, offs)) (ht : checkType file = .ok "LBX")
    (hm : getMeta file N offs = .ok (names, desc))
    (hp : processArchive lbxFile file = ⟨outs, none⟩) :
    outs.length = N
    ∧ ∀ i, i < N → ∃ o, outs.get? i = some o
        ∧ (itoa (i + 1) ++ underscore) <+: o.name
        ∧ (window file.data (offs.getD i 0) (offs.getD i 0 + 4) ≠ signWAV →
            o.name = itoa (i + 1) ++ underscore ++ names.getD i [] ++ underscore
              ++ stringsReplace (desc.getD i []) slashByte underscore)
        ∧ (window file.data (offs.getD i 0) (offs.getD i 0 + 4) = signWAV →
            o.name = itoa (i + 1) ++ underscore ++ names.getD i [] ++ underscore
              ++ stringsReplace (desc.getD i []) slashByte underscore ++ extWAV) := by
  obtain ⟨hout, _⟩ := lbx_run hh ht hm hp
  refine ⟨by simp [hout], ?_⟩
  intro i hi
  refine ⟨⟨entryName names desc i (subExt file.data offs i),
      window file.data (offs.getD i 0) (endOf file.data offs i)⟩, ?_, ?_, ?_, ?_⟩
  · rw [hout, List.get?_eq_getElem?, List.getElem?_map, List.getElem?_range hi]
    rfl
  · simp only [entryName, List.append_assoc]
    rw [← List.append_assoc]
    exact List.prefix_append _ _
  · intro hne
    simp only [entryName, subExt]
    rw [if_neg hne, List.append_nil]
  · intro he
    simp only [entryName, subExt]
    rw [if_pos he]

/-- Witness for C10 (amended): the sub-archive `lbxWav`. -/
theorem subarchive_names_witness :
    ([⟨[49, 95, 95], List.replicate 20 9⟩,
        ⟨[50, 95, 95] ++ extWAV, signWAV⟩] : List Output).length = 2
    ∧ ∀ i, i < 2 → ∃ o, ([⟨[49, 95, 95], List.replicate 20 9⟩,
          ⟨[50, 95, 95] ++ extWAV, signWAV⟩] : List Output).get? i = some o
        ∧ (itoa (i + 1) ++ underscore) <+: o.name
        ∧ (window lbxWav (([512, 532] : List Nat).getD i 0)
              (([512, 532] : List Nat).getD i 0 + 4) ≠ signWAV →
            o.name = itoa (i + 1) ++ underscore ++ ([[], []] : List (List Byte)).getD i []
              ++ underscore
              ++ stringsReplace (([[], []] : List (List Byte)).getD i []) slashByte underscore)
        ∧ (window lbxWav (([512, 532] : List Nat).getD i 0)
              (([512, 532] : List Nat).getD i 0 + 4) = signWAV →
            o.name = itoa (i + 1) ++ underscore ++ ([[], []] : List (List Byte)).getD i []
              ++ underscore
              ++ stringsReplace (([[], []] : List (List Byte)).getD i []) slashByte underscore
              ++ extWAV) :=
  subarchive_names nameA (readFile lbxWav) 2 [512, 532] [[], []] [[], []] _ (by decide) (by decide)
    (by decide) (by decide)

/-- Counterexample to C9 as stated: the buffer `mixedWav` is classified
"data+XMI", has `N = 4` entries and is processed without a fault, but its entry
1 (an index below `N-2`) carries the raw-sound signature at its own offset and
is written as `2__.WAV`; the archive yields three outputs, not two. -/
theorem mixed_archive_three_outputs :
    readHeader (readFile mixedWav) = .ok (4, [512, 516, 520, 536])
    ∧ checkType (readFile mixedWav) = .ok "data+XMI"
    ∧ processArchive nameA (readFile mixedWav)
        = ⟨[⟨[50, 95, 95] ++ extWAV, signWAV⟩, ⟨[51, 95, 95] ++ extXMI, []⟩,
            ⟨[52, 95, 95] ++ extXMI, []⟩], none⟩
    ∧ (processArchive nameA (readFile mixedWav)).outputs.length = 3 := by
  decide

/-- C9 (amended): mixed driver-and-sequence extraction.  For an archive
classified "data+XMI" with `N ≥ 2` entries that is processed without a fault
and in which no entry carries the raw-sound signature at its own offset: every
entry with index below `N-2` produces no output; the archive yields exactly two
outputs, the bytes `buffer[fileOffsets[N-2]+16, fileOffsets[N-1])` of entry
`N-2` and the bytes `buffer[fileOffsets[N-1]+16, len(buffer))` of entry `N-1`;
and both names end in ".XMI". -/
theorem mixed_archive_outputs (lbxFile : List Byte) (file : Buf) (N : Nat) (offs : List Nat)
    (names desc : List (List Byte)) (outs : List Output)
    (hh : readHeader file = .ok (N, offs)) (ht : checkType file = .ok "data+XMI")
    (hm : getMeta file N offs = .ok (names, desc)) (hN : 2 ≤ N)
    (hp : processArchive lbxFile file = ⟨outs, none⟩)
    (hnw : ∀ i, i < N →
      window file.data (offs.getD i 0) (offs.getD i 0 + 4) ≠ signWAV) :
    (∀ i, i + 2 < N →
        sliceEntry file "data+XMI" names desc offs i (offs.getD i 0) = .ok none)
    ∧ outs = [⟨entryName names desc (N - 2) extXMI,
                window file.data (offs.getD (N - 2) 0 + 16) (offs.getD (N - 1) 0)⟩,
              ⟨entryName names desc (N - 1) extXMI,
                window file.data (offs.getD (N - 1) 0 + 16) file.data.length⟩]
    ∧ extXMI <:+ entryName names desc (N - 2) extXMI
    ∧ extXMI <:+ entryName names desc (N - 1) extXMI := by
  obtain ⟨names2, desc2, rs, hm2, l1, l2, l3, hrl, hent, hout⟩ :=
    run_entries hh ht (by decide) hp
  rw [hm] at hm2
  simp only [Except.ok.injEq, Prod.mk.injEq] at hm2
  obtain ⟨rfl, rfl⟩ := hm2
  have key : ∀ j, j < N →
      (j + 2 < N → rs.getD j none = none)
      ∧ (N ≤ j + 2 → offs.getD j 0 + 16 ≤ endOf file.data offs j
          ∧ rs.getD j none = some (⟨entryName names desc j extXMI,
            window file.arr (offs.getD j 0 + 16) (endOf file.data offs j)⟩ : Output)) := by
    intro j hj
    obtain ⟨_, hcase⟩ := sliceEntry_inv (by omega) (by omega) (by omega) (hent j hj)
    rcases hcase with ⟨hc, _⟩ | ⟨_, hbt⟩
    · exact absurd hc (hnw j hj)
    · obtain ⟨k1, k2⟩ := sliceByType_mixed_inv (by omega) (by omega) (by omega) hbt
      exact ⟨fun h => k1 (by omega), fun h => ⟨(k2 (by omega)).1, (k2 (by omega)).2.2⟩⟩
  have e2 : endOf file.data offs (N - 2) = offs.getD (N - 1) 0 := by
    simp only [endOf]
    rw [if_neg (by omega), show N - 2 + 1 = N - 1 by omega]
  have e1 : endOf file.data offs (N - 1) = file.data.length := by
    simp only [endOf]
    rw [if_pos (by omega)]
  have b1 : offs.getD (N - 1) 0 ≤ file.data.length := by
    have := ((key (N - 1) (by omega)).2 (by omega)).1
    rw [e1] at this
    omega
  refine ⟨?_, ?_, ?_, ?_⟩
  · intro i hi
    rw [hent i (by omega), (key i (by omega)).1 hi]
  · rw [hout]
    apply reduceOption_last_two
    · omega
    · intro j hj
      exact (key j (by omega)).1 (by omega)
    · rw [hrl, ((key (N - 2) (by omega)).2 (by omega)).2, e2, window_arr_inside b1]
    · rw [hrl, ((key (N - 1) (by omega)).2 (by omega)).2, e1,
        window_arr_inside (Nat.le_refl _)]
  · simp only [entryName]
    exact List.suffix_append _ _
  · simp only [entryName]
    exact List.suffix_append _ _

/-- Witness for C9 (amended): the three-entry archive `mixedArc`, whose outputs
are the ranges `[532, 540)` and `[556, 560)`. -/
theorem mixed_archive_outputs_witness :
    processArchive nameA (readFile mixedArc)
        = ⟨[⟨[50, 95, 95] ++ extXMI, List.replicate 8 5⟩,
            ⟨[51, 95, 95] ++ extXMI, List.replicate 4 5⟩], none⟩
    ∧ ((∀ i, i + 2 < 3 →
          sliceEntry (readFile mixedArc) "data+XMI" [[], [], []] [[], [], []] [512, 516, 540] i
            (([512, 516, 540] : List Nat).getD i 0) = .ok none)
      ∧ ([⟨[50, 95, 95] ++ extXMI, List.replicate 8 5⟩,
            ⟨[51, 95, 95] ++ extXMI, List.replicate 4 5⟩] : List Output)
          = [⟨entryName [[], [], []] [[], [], []] (3 - 2) extXMI,
                window mixedArc (([512, 516, 540] : List Nat).getD (3 - 2) 0 + 16)
                  (([512, 516, 540] : List Nat).getD (3 - 1) 0)⟩,
              ⟨entryName [[], [], []] [[], [], []] (3 - 1) extXMI,
                window mixedArc (([512, 516, 540] : List Nat).getD (3 - 1) 0 + 16)
                  mixedArc.length⟩]
      ∧ extXMI <:+ entryName [[], [], []] [[], [], []] (3 - 2) extXMI
      ∧ extXMI <:+ entryName [[], [], []] [[], [], []] (3 - 1) extXMI) :=
  ⟨by decide,
    mixed_archive_outputs nameA (readFile mixedArc) 3 [512, 516, 540] [[], [], []]
      [[], [], []] _ (by decide) (by decide) (by decide) (by decide) (by decide) (by decide)⟩

/-- Counterexample to C13 as stated: both buffers are shorter than
`8 + 4*entryCount` and yet reading their header succeeds.  The two-byte buffer
`emptyHeader` has entry count 0, so the loop that reads the table does not run.
The 10-byte buffer `headerCut` declares one entry: `file[8:12]` lies within the
capacity of the buffer, under either `ReadFile`, and the offset is read from
its bytes 8 and 9 and two spare bytes. -/
theorem readHeader_short_buffers_succeed :
    2 ≤ emptyHeader.length
    ∧ le16At emptyHeader 0 = 0
    ∧ emptyHeader.length < 8 + 4 * le16At emptyHeader 0
    ∧ readHeader (readFile emptyHeader) = .ok (0, [])
    ∧ 2 ≤ headerCut.length
    ∧ le16At headerCut 0 = 1
    ∧ headerCut.length < 8 + 4 * le16At headerCut 0
    ∧ readHeader (readFile headerCut) = .ok (1, [0])
    ∧ readHeader (readFileLegacy headerCut) = .ok (1, [0]) := by
  decide

/-- C13 (amended): the Header Reader failure condition.  For every buffer of at
least 2 bytes whose entry count, the little-endian value of bytes `[0,2)`, is
at least 1: if `8 + 4*entryCount` exceeds the capacity of the buffer, reading
the header fails with a slice-bounds panic instead of returning an offset
table. -/
theorem readHeader_fails_beyond_capacity (file : Buf) (h2 : 2 ≤ file.data.length)
    (h1 : 1 ≤ le16At file.data 0) (hs : file.cap < 8 + 4 * le16At file.data 0) :
    readHeader file = .error .sliceBounds := by
  simp only [readHeader, slice_ok (show 0 ≤ 2 by omega) h2, bind, Except.bind,
    decode_window_two (p := 0) h2, readOffsets_short file _ 8 [] h1 hs]

/-- Witness for C13 (amended): the two-byte buffer `headerMany` declares 200
entries, whose table would end at byte 808, past the capacity 512. -/
theorem readHeader_fails_beyond_capacity_witness :
    2 ≤ (readFile headerMany).data.length
    ∧ 1 ≤ le16At (readFile headerMany).data 0
    ∧ (readFile headerMany).cap < 8 + 4 * le16At (readFile headerMany).data 0
    ∧ readHeader (readFile headerMany) = .error .sliceBounds :=
  ⟨by decide, by decide, by decide,
    readHeader_fails_beyond_capacity (readFile headerMany) (by decide) (by decide)
      (by decide)⟩

/-- Counterexample to C14 as stated: the Header Reader succeeds on the 12-byte
buffer `classifyFar`, with one entry at offset 1048576, but `checkType` fails
on it with an out-of-range read, under the capacity of either `ReadFile`: the
window `[1048592, 1048596)` is sliced without being validated. -/
theorem checkType_unchecked_window :
    readHeader (readFile classifyFar) = .ok (1, [1048576])
    ∧ le32At classifyFar 8 = 1048576
    ∧ checkType (readFile classifyFar) = .error .sliceBounds
    ∧ checkType (readFileLegacy classifyFar) = .error .sliceBounds := by
  decide

/-- C14 (amended): bounds behaviour of the classifier.  For every buffer on
which the Header Reader succeeds with at least one entry, with `off0` the first
offset: `checkType` returns a type when bytes `[0,4)` are the stream signature
or `off0 + 20` is within the capacity of the buffer; when neither holds it
fails with an out-of-range read, the windows at `off0` not being validated
before they are accessed. -/
theorem checkType_bounds (b : Buf) (N : Nat) (offs : List Nat)
    (hh : readHeader b = .ok (N, offs)) (hN : 1 ≤ N) :
    offs.get? 0 = some (le32At b.data 8)
    ∧ ((window b.data 0 4 = signSMK ∨ le32At b.data 8 + 20 ≤ b.cap) →
        ∃ t, checkType b = .ok t)
    ∧ (window b.data 0 4 ≠ signSMK → b.cap < le32At b.data 8 + 20 →
        checkType b = .error .sliceBounds) := by
  obtain ⟨_, ho, hl⟩ := readHeader_facts hh
  have h12 : 12 ≤ b.cap := by
    have := hl (by omega)
    omega
  refine ⟨?_, ?_, ?_⟩
  · rw [ho, List.get?_eq_getElem?, List.getElem?_map, List.getElem?_range (by omega)]
    rfl
  · intro hc
    exact checkType_total h12 hc
  · intro hs hb
    exact checkType_out_of_range h12 hs hb

/-- Witness for C14 (amended): the 32-byte sub-archive `lbxSmall`. -/
theorem checkType_bounds_witness :
    readHeader (readFile lbxSmall) = .ok (1, [12])
    ∧ ([12] : List Nat).get? 0 = some (le32At (readFile lbxSmall).data 8)
    ∧ ((window (readFile lbxSmall).data 0 4 = signSMK
          ∨ le32At (readFile lbxSmall).data 8 + 20 ≤ (readFile lbxSmall).cap) →
        ∃ t, checkType (readFile lbxSmall) = .ok t)
    ∧ (window (readFile lbxSmall).data 0 4 ≠ signSMK →
        (readFile lbxSmall).cap < le32At (readFile lbxSmall).data 8 + 20 →
        checkType (readFile lbxSmall) = .error .sliceBounds) :=
  ⟨by decide, checkType_bounds (readFile lbxSmall) 1 [12] (by decide) (by decide)⟩

/-- C16: the shape of the metadata output.  When `getMeta` succeeds it returns
exactly `N` names and exactly `N` descriptions; every name has no zero byte
and at most 8 bytes, every description has no zero byte and at most 22
bytes. -/
theorem getMeta_shape (b : Buf) (N : Nat) (off : List Nat)
    (names desc : List (List Byte)) (h : getMeta b N off = .ok (names, desc)) :
    names.length = N ∧ desc.length = N
    ∧ (∀ n ∈ names, (0 : Byte) ∉ n ∧ n.length ≤ 8)
    ∧ (∀ d ∈ desc, (0 : Byte) ∉ d ∧ d.length ≤ 22) := by
  obtain ⟨l1, l2⟩ := getMeta_length h
  refine ⟨l1, l2, ?_⟩
  rcases Nat.eq_zero_or_pos N with h0 | hN
  · subst h0
    rw [List.length_eq_zero] at l1 l2
    subst l1 l2
    simp
  · obtain ⟨_, r1, r2⟩ := getMeta_result h hN
    by_cases hm : window b.arr 8 12 = signMO2
    · obtain ⟨e1, e2⟩ := r1 hm
      subst e1 e2
      constructor
      · intro n hn
        rw [(List.mem_replicate.mp hn).2]
        simp
      · intro d hd
        rw [(List.mem_replicate.mp hd).2]
        simp
    · obtain ⟨off0, _, e1, e2, _⟩ := r2 hm
      subst e1 e2
      constructor
      · intro n hn
        obtain ⟨j, _, rfl⟩ := List.mem_map.mp hn
        simp only [loopName]
        split
        · simp
        · refine ⟨(stripZeros_shape _).1, Nat.le_trans (stripZeros_shape _).2 ?_⟩
          have := window_size_le b.data (512 + 32 * j) (512 + 32 * j + 8)
          omega
      · intro d hd
        obtain ⟨j, _, rfl⟩ := List.mem_map.mp hd
        simp only [loopDesc]
        split
        · simp
        · refine ⟨(stripZeros_shape _).1, Nat.le_trans (stripZeros_shape _).2 ?_⟩
          have := window_size_le b.data (512 + 9 + 32 * j) (512 + 9 + 32 * j + 22)
          omega

/-- Witness for C16: the two names and two descriptions read from
`metaBuf`. -/
theorem getMeta_shape_witness :
    getMeta (readFile metaBuf) 2 [576, 576] = .ok (metaNames, metaDescs)
    ∧ metaNames.length = 2 ∧ metaDescs.length = 2
    ∧ (∀ n ∈ metaNames, (0 : Byte) ∉ n ∧ n.length ≤ 8)
    ∧ (∀ d ∈ metaDescs, (0 : Byte) ∉ d ∧ d.length ≤ 22) :=
  ⟨by decide, getMeta_shape (readFile metaBuf) 2 [576, 576] metaNames metaDescs (by decide)⟩

/-- C18: `decode` rejects unsupported widths.  `decode b` ends the run with
`os.Exit(1)` exactly when the length of `b` is neither 2 nor 4, it returns an
integer exactly when the length is 2 or 4, and it has no other way to fail. -/
theorem decode_rejects_other_widths (b : List Byte) :
    (decode b = .error .exit ↔ (b.length ≠ 2 ∧ b.length ≠ 4))
    ∧ ((∃ n, decode b = .ok n) ↔ (b.length = 2 ∨ b.length = 4))
    ∧ (∀ e, decode b = .error e → e = .exit) := by
  unfold decode
  by_cases h2 : b.length = 2
  · simp [h2]
  · by_cases h4 : b.length = 4
    · simp [h2, h4]
    · simp [h2, h4]

/-- Counterexample to C11 as stated: both buffers are classified "unknown"
after a successful header read.  Processing `unknownWav` writes the file
`2__.WAV`, because its entry 1 carries the raw-sound signature; processing
`unknownFar` stops with a slice-bounds panic at entry 1, whose offset lies far
past the buffer.  Both hold under the capacity of either `ReadFile`. -/
theorem unknown_archive_output_and_abort :
    readHeader (readFile unknownWav) = .ok (2, [512, 532])
    ∧ checkType (readFile unknownWav) = .ok "unknown"
    ∧ processArchive nameA (readFile unknownWav)
        = ⟨[⟨[50, 95, 95] ++ extWAV, signWAV⟩], none⟩
    ∧ processArchive nameA (readFileLegacy unknownWav)
        = ⟨[⟨[50, 95, 95] ++ extWAV, signWAV⟩], none⟩
    ∧ readHeader (readFile unknownFar) = .ok (2, [512, 16777216])
    ∧ checkType (readFile unknownFar) = .ok "unknown"
    ∧ processArchive nameA (readFile unknownFar) = ⟨[], some .sliceBounds⟩
    ∧ processArchive nameA (readFileLegacy unknownFar) = ⟨[], some .sliceBounds⟩ := by
  decide

/-- C11 (amended): unknown-type archives.  For every buffer classified
"unknown" (header read and classification having succeeded) on which the
Metadata Reader succeeds and in which the window `[v, v+4)` of every entry
offset `v` lies inside the buffer and is not the raw-sound signature,
processing the archive writes no file and ends without a fault. -/
theorem unknown_archive_no_output (lbxFile : List Byte) (file : Buf) (N : Nat)
    (offs : List Nat) (names desc : List (List Byte))
    (hh : readHeader file = .ok (N, offs))
    (ht : checkType file = .ok "unknown") (hm : getMeta file N offs = .ok (names, desc))
    (hw : ∀ i, i < N → offs.getD i 0 + 4 ≤ file.data.length
      ∧ window file.data (offs.getD i 0) (offs.getD i 0 + 4) ≠ signWAV) :
    processArchive lbxFile file = ⟨[], none⟩ := by
  have hlen : offs.length = N := readHeader_length hh
  rw [run_unfold hh ht (by decide) hm]
  apply sliceLoop_none
  intro j hj
  obtain ⟨hb, hne⟩ := hw j (by omega)
  rw [Nat.zero_add,
    sliceEntry_other "unknown" names desc offs j (Nat.le_trans hb (cap_ge file)) hne]
  exact sliceByType_none names desc offs j _ (by decide) (by decide) (by decide) (by decide)

/-- Witness for C11 (amended): the archive `unknownArc`, whose two entries
lie inside the buffer and hold no signature. -/
theorem unknown_archive_no_output_witness :
    readHeader (readFile unknownArc) = .ok (2, [512, 532])
    ∧ checkType (readFile unknownArc) = .ok "unknown"
    ∧ processArchive nameA (readFile unknownArc) = ⟨[], none⟩ :=
  ⟨by decide, by decide,
    unknown_archive_no_output nameA (readFile unknownArc) 2 [512, 532] [[], []] [[], []]
      (by decide) (by decide) (by decide) (by decide)⟩

/-- Counterexample to C12 as stated: in the sub-archive `lbxPlus1` the range of
entry 0 is `[512, 533)`, whose end lies past the 532 bytes of the buffer, yet
the slicing step of entry 0 does not fail, under the capacity of either
`ReadFile`: the offset 533 is within the capacity, and the file `1__` is
written with 21 bytes, the last of them a spare byte. -/
theorem range_past_buffer_is_written :
    readHeader (readFile lbxPlus1) = .ok (2, [512, 533])
    ∧ checkType (readFile lbxPlus1) = .ok "LBX"
    ∧ lbxPlus1.length = 532
    ∧ rangeStart lbxPlus1 "LBX" [512, 533] 0 512 = some 512
    ∧ endOf lbxPlus1 [512, 533] 0 = 533
    ∧ sliceEntry (readFile lbxPlus1) "LBX" [[], []] [[], []] [512, 533] 0 512
        = .ok (some ⟨[49, 95, 95], List.replicate 20 9 ++ [0]⟩)
    ∧ sliceEntry (readFileLegacy lbxPlus1) "LBX" [[], []] [[], []] [512, 533] 0 512
        = .ok (some ⟨[49, 95, 95], List.replicate 20 9 ++ [0]⟩)
    ∧ (processArchive nameA (readFile lbxPlus1)).outputs
        = [⟨[49, 95, 95], List.replicate 20 9 ++ [0]⟩]
    ∧ (processArchive nameA (readFileLegacy lbxPlus1)).outputs
        = [⟨[49, 95, 95], List.replicate 20 9 ++ [0]⟩] := by
  decide

/-- C12 (amended): slice failure semantics.  For an entry `i` at offset `v` for
which the slicer computes a range `[start, end)` (`start` is `v` or `v + 16` by
the branch taken, `end` is the next offset or the buffer length): if
`start > end` or `end` exceeds the capacity of the buffer, the slicing step of
entry `i` panics; the loop stops at entry `i` with the files written before it
and nothing for entry `i` or after it; and the processing of the archive ends
with a fault. -/
theorem bad_range_fails (file : Buf) (N : Nat) (offs : List Nat) (ftype : String)
    (names desc : List (List Byte)) (i v s : Nat)
    (hh : readHeader file = .ok (N, offs)) (hm : getMeta file N offs = .ok (names, desc))
    (hv : offs.get? i = some v) (hr : rangeStart file.data ftype offs i v = some s)
    (hbad : endOf file.data offs i < s ∨ file.cap < endOf file.data offs i) :
    sliceEntry file ftype names desc offs i v = .error .sliceBounds
    ∧ (∀ (rest : List Nat) (written : List Output),
        sliceLoop file ftype names desc offs (v :: rest) i written
          = ⟨written, some .sliceBounds⟩)
    ∧ (∀ lbxFile : List Byte, checkType file = .ok ftype → ftype ≠ "SMK" →
        (processArchive lbxFile file).fault ≠ none) := by
  have hlen : offs.length = N := readHeader_length hh
  obtain ⟨l1, l2⟩ := getMeta_length hm
  obtain ⟨hi, hvd⟩ := get?_facts hv
  have he : sliceEntry file ftype names desc offs i v = .error .sliceBounds :=
    sliceEntry_bad_range (by omega) (by omega) hi hr hbad
  refine ⟨he, ?_, ?_⟩
  · intro rest written
    unfold sliceLoop
    rw [he]
  · intro lbxFile ht hs
    exact run_fault_of_entry (i := i) hh ht hs hm (by omega) (by rw [hvd]; exact he)

/-- Witness for C12 (amended): entry 0 of the malformed archive `wavBack`,
whose range starts at 512 and ends at 100. -/
theorem bad_range_fails_witness :
    rangeStart (readFile wavBack).data "WAV" [512, 100] 0 512 = some 512
    ∧ (endOf (readFile wavBack).data [512, 100] 0 < 512
        ∨ (readFile wavBack).cap < endOf (readFile wavBack).data [512, 100] 0)
    ∧ (sliceEntry (readFile wavBack) "WAV" [[], []] [[], []] [512, 100] 0 512
          = .error .sliceBounds
      ∧ (∀ (rest : List Nat) (written : List Output),
          sliceLoop (readFile wavBack) "WAV" [[], []] [[], []] [512, 100] (512 :: rest) 0
            written = ⟨written, some .sliceBounds⟩)
      ∧ (∀ lbxFile : List Byte, checkType (readFile wavBack) = .ok "WAV" → "WAV" ≠ "SMK" →
          (processArchive lbxFile (readFile wavBack)).fault ≠ none)) :=
  ⟨by decide, by decide,
    bad_range_fails (readFile wavBack) 2 [512, 100] "WAV" [[], []] [[], []] 0 512 512
      (by decide) (by decide) (by decide) (by decide) (by decide)⟩

/-- Counterexample to C15 as stated: the Header Reader succeeds on the 16-byte
buffer `headerSmall` and returns the offsets 16 and 513, neither of which is
below the buffer length. -/
theorem offset_beyond_buffer :
    readHeader (readFile headerSmall) = .ok (2, [16, 513])
    ∧ headerSmall.length = 16
    ∧ ¬ (16 < headerSmall.length)
    ∧ ¬ (513 < headerSmall.length) := by
  decide

/-- C15 (amended): the bound on the Offset Table.  For every buffer on which
the Header Reader succeeds, the table has `N` entries and every offset is below
`2^32`; and when the archive, of a type other than "SMK", is moreover processed
without a fault, every offset `v` satisfies `v + 4 ≤ cap(buffer)`: the offsets
are bounded by the capacity of the buffer, not by its length. -/
theorem offsets_bound (file : Buf) (N : Nat) (offs : List Nat)
    (hh : readHeader file = .ok (N, offs)) :
    offs.length = N
    ∧ (∀ i v, offs.get? i = some v → v < 2 ^ 32)
    ∧ (∀ (lbxFile : List Byte) (ftype : String) (outs : List Output),
        checkType file = .ok ftype → ftype ≠ "SMK" →
        processArchive lbxFile file = ⟨outs, none⟩ →
        ∀ i v, offs.get? i = some v → v + 4 ≤ file.cap) := by
  obtain ⟨_, ho, _⟩ := readHeader_facts hh
  have hlen : offs.length = N := readHeader_length hh
  refine ⟨hlen, ?_, ?_⟩
  · intro i v hv
    obtain ⟨hi, hvd⟩ := get?_facts hv
    rw [ho, List.get?_eq_getElem?, List.getElem?_map,
      List.getElem?_range (by omega)] at hv
    simp only [Option.map_some', Option.some.injEq] at hv
    rw [← hv]
    exact le32At_lt file.data _
  · intro lbxFile ftype outs ht hs hp i v hv
    obtain ⟨hi, hvd⟩ := get?_facts hv
    obtain ⟨names, desc, rs, _, l1, l2, _, _, hent, _⟩ := run_entries hh ht hs hp
    have := (sliceEntry_inv (by omega) (by omega) hi (hent i (by omega))).1
    rw [hvd] at this
    exact this

/-- Witness for C15 (amended): the offset table of the sub-archive `lbxWav`. -/
theorem offsets_bound_witness :
    readHeader (readFile lbxWav) = .ok (2, [512, 532])
    ∧ ([512, 532] : List Nat).length = 2
    ∧ (∀ i v, ([512, 532] : List Nat).get? i = some v → v < 2 ^ 32)
    ∧ (∀ (lbxFile : List Byte) (ftype : String) (outs : List Output),
        checkType (readFile lbxWav) = .ok ftype → ftype ≠ "SMK" →
        processArchive lbxFile (readFile lbxWav) = ⟨outs, none⟩ →
        ∀ i v, ([512, 532] : List Nat).get? i = some v → v + 4 ≤ (readFile lbxWav).cap) :=
  ⟨by decide, offsets_bound (readFile lbxWav) 2 [512, 532] (by decide)⟩

/-- C17: output name construction.  For every entry `i` that produces an
output, with name `n` and description `d` from the Metadata Reader, the output
name is the decimal numeral of `i+1`, "_", `n`, "_", `d'` and the extension of
the branch taken (".WAV", ".VOC", ".XMI" or none), where `d'` has the length of
`d`, has "_" wherever `d` has "/", agrees with `d` elsewhere and contains no
"/"; an empty `n` or `d` leaves an empty segment between the separators. -/
theorem output_name_construction (file : Buf) (N : Nat) (offs : List Nat)
    (ftype : String) (names desc : List (List Byte)) (i v : Nat) (o : Output)
    (hh : readHeader file = .ok (N, offs)) (hm : getMeta file N offs = .ok (names, desc))
    (hv : offs.get? i = some v)
    (hs : sliceEntry file ftype names desc offs i v = .ok (some o)) :
    ∃ n d d2 : List Byte, names.get? i = some n ∧ desc.get? i = some d
      ∧ o.name = itoa (i + 1) ++ [0x5F] ++ n ++ [0x5F] ++ d2 ++ branchExt file.data ftype v
      ∧ branchExt file.data ftype v ∈ [extWAV, extVOC, extXMI, []]
      ∧ d2.length = d.length
      ∧ (∀ k, k < d.length →
          d2.getD k 0 = if d.getD k 0 = slashByte then 0x5F else d.getD k 0)
      ∧ slashByte ∉ d2
      ∧ (∀ c ∈ itoa (i + 1), 48 ≤ c.val ∧ c.val ≤ 57)
      ∧ parseDec (itoa (i + 1)) = i + 1 := by
  have hlen : offs.length = N := readHeader_length hh
  obtain ⟨l1, l2⟩ := getMeta_length hm
  obtain ⟨hi, _⟩ := get?_facts hv
  have hn : i < names.length := by omega
  have hd : i < desc.length := by omega
  have hname := sliceEntry_name hn hd hi hs
  refine ⟨names.getD i [], desc.getD i [],
    (desc.getD i []).map (fun c => if c = slashByte then (0x5F : Byte) else c),
    ?_, ?_, ?_, ?_, ?_, ?_, ?_, (itoa_spec (i + 1)).1, (itoa_spec (i + 1)).2⟩
  · rw [List.get?_eq_getElem?, List.getD_eq_getElem?_getD, List.getElem?_eq_getElem hn]
    rfl
  · rw [List.get?_eq_getElem?, List.getD_eq_getElem?_getD, List.getElem?_eq_getElem hd]
    rfl
  · rw [hname, entryName, stringsReplace_slash]
    rfl
  · simp only [branchExt, typeExt]
    split_ifs <;> simp
  · simp
  · intro k hk
    exact map_getD _ _ k hk
  · intro hmem
    obtain ⟨c, _, hc⟩ := List.mem_map.mp hmem
    by_cases h : c = slashByte
    · rw [if_pos h] at hc
      exact absurd hc (by decide)
    · rw [if_neg h] at hc
      exact h hc

/-- Witness for C17: the entry of the sub-archive `descArc`, named `AB` and
described as `x/y`, is written as `1_AB_x_y`. -/
theorem output_name_construction_witness :
    ∃ n d d2 : List Byte, ([[65, 66]] : List (List Byte)).get? 0 = some n
      ∧ ([[120, 47, 121]] : List (List Byte)).get? 0 = some d
      ∧ (⟨[49, 95, 65, 66, 95, 120, 95, 121], List.replicate 20 3⟩ : Output).name
          = itoa (0 + 1) ++ [0x5F] ++ n ++ [0x5F] ++ d2 ++ branchExt descArc "LBX" 544
      ∧ branchExt descArc "LBX" 544 ∈ [extWAV, extVOC, extXMI, []]
      ∧ d2.length = d.length
      ∧ (∀ k, k < d.length →
          d2.getD k 0 = if d.getD k 0 = slashByte then 0x5F else d.getD k 0)
      ∧ slashByte ∉ d2
      ∧ (∀ c ∈ itoa (0 + 1), 48 ≤ c.val ∧ c.val ≤ 57)
      ∧ parseDec (itoa (0 + 1)) = 0 + 1 :=
  output_name_construction (readFile descArc) 1 [544] "LBX" [[65, 66]] [[120, 47, 121]] 0 544
    ⟨[49, 95, 65, 66, 95, 120, 95, 121], List.replicate 20 3⟩
    (by decide) (by decide) (by decide) (by decide)

/-- C20: output names never collide within one archive.  For two distinct
entry indices that both produce an output, the two output names are different,
whatever the names, descriptions and extensions: each starts with the decimal
numeral of its index plus one, made of digits only, followed by "_". -/
theorem output_names_distinct (file : Buf) (N : Nat) (offs : List Nat)
    (ftype : String) (names desc : List (List Byte)) (i j v w : Nat) (o1 o2 : Output)
    (hh : readHeader file = .ok (N, offs)) (hm : getMeta file N offs = .ok (names, desc))
    (hv : offs.get? i = some v) (hw : offs.get? j = some w) (hij : i ≠ j)
    (h1 : sliceEntry file ftype names desc offs i v = .ok (some o1))
    (h2 : sliceEntry file ftype names desc offs j w = .ok (some o2)) :
    o1.name ≠ o2.name := by
  have hlen : offs.length = N := readHeader_length hh
  obtain ⟨l1, l2⟩ := getMeta_length hm
  obtain ⟨hi, _⟩ := get?_facts hv
  obtain ⟨hj, _⟩ := get?_facts hw
  have n1 := sliceEntry_name (by omega) (by omega) hi h1
  have n2 := sliceEntry_name (by omega) (by omega) hj h2
  intro heq
  rw [n1, n2] at heq
  simp only [entryName, underscore, List.append_assoc, List.singleton_append] at heq
  have hdig : ∀ m, ∀ c ∈ itoa m, c ≠ (0x5F : Byte) := by
    intro m c hc hcu
    have := (itoa_spec m).1 c hc
    rw [hcu] at this
    revert this
    decide
  have := split_unique 0x5F _ _ _ _ (hdig (i + 1)) (hdig (j + 1)) heq
  have := itoa_injective this
  omega

/-- Witness for C20: the two outputs of the sub-archive `lbxWav`, `1__` and
`2__.WAV`. -/
theorem output_names_distinct_witness :
    (⟨[49, 95, 95], List.replicate 20 9⟩ : Output).name
      ≠ (⟨[50, 95, 95] ++ extWAV, signWAV⟩ : Output).name :=
  output_names_distinct (readFile lbxWav) 2 [512, 532] "LBX" [[], []] [[], []] 0 1 512 532
    ⟨[49, 95, 95], List.replicate 20 9⟩ ⟨[50, 95, 95] ++ extWAV, signWAV⟩
    (by decide) (by decide) (by decide) (by decide) (by decide) (by decide) (by decide)

/-- Counterexample to C19 as stated: in the run over `unknownFar` and then
`lbxWav`, the first archive fails with a slice-bounds panic and the run ends
there, under the capacity of either `ReadFile`; the second archive, which
yields two outputs when processed alone, is never processed. -/
theorem run_does_not_continue :
    processArchive nameA (readFile unknownFar) = ⟨[], some .sliceBounds⟩
    ∧ (processArchive nameB (readFile lbxWav)).fault = none
    ∧ (processArchive nameB (readFile lbxWav)).outputs.length = 2
    ∧ runArchives [(nameA, readFile unknownFar), (nameB, readFile lbxWav)]
        = ⟨[(nameA, [])], some .sliceBounds⟩
    ∧ runArchives [(nameA, readFileLegacy unknownFar), (nameB, readFileLegacy lbxWav)]
        = ⟨[(nameA, [])], some .sliceBounds⟩ := by
  decide

/-- C19 (amended): a malformed archive ends the run.  For every sequence of
archives processed in one run, if the archives before archive `k` are processed
without a fault and processing archive `k` fails, the run stops at archive `k`
with that fault: each archive before `k` has yielded the outputs it yields when
processed alone, archive `k` keeps the files it wrote before the fault, and no
archive after `k` is processed. -/
theorem run_stops_at_fault (pre post : List (List Byte × Buf))
    (lbxFile : List Byte) (file : Buf) (outs : List Output) (e : Fault)
    (hpre : ∀ a ∈ pre, (processArchive a.1 a.2).fault = none)
    (hk : processArchive lbxFile file = ⟨outs, some e⟩) :
    runArchives (pre ++ (lbxFile, file) :: post)
      = ⟨pre.map (fun a => (a.1, (processArchive a.1 a.2).outputs)) ++ [(lbxFile, outs)],
          some e⟩ := by
  induction pre with
  | nil =>
    simp only [List.nil_append, List.map_nil, runArchives, hk]
  | cons a pre ih =>
    obtain ⟨n, f⟩ := a
    have ha : (processArchive n f).fault = none := hpre (n, f) (by simp)
    have ih2 := ih (fun a h => hpre a (by simp [h]))
    cases hpa : processArchive n f with
    | mk o fl =>
      rw [hpa] at ha
      simp only at ha
      subst ha
      simp only [List.cons_append, runArchives, hpa, List.map_cons]
      have e2 : runArchives (pre.append ((lbxFile, file) :: post))
          = ⟨pre.map (fun a => (a.1, (processArchive a.1 a.2).outputs)) ++ [(lbxFile, outs)],
              some e⟩ := ih2
      rw [e2]

/-- Witness for C19 (amended): the run over `lbxWav`, `unknownFar` and
`lbxWav` again stops at the second archive. -/
theorem run_stops_at_fault_witness :
    (∀ a ∈ [(nameA, readFile lbxWav)], (processArchive a.1 a.2).fault = none)
    ∧ processArchive nameB (readFile unknownFar) = ⟨[], some .sliceBounds⟩
    ∧ runArchives ([(nameA, readFile lbxWav)] ++ (nameB, readFile unknownFar)
          :: [(nameA, readFile lbxWav)])
        = ⟨[(nameA, readFile lbxWav)].map (fun a => (a.1, (processArchive a.1 a.2).outputs))
            ++ [(nameB, [])], some .sliceBounds⟩ :=
  ⟨by decide, by decide,
    run_stops_at_fault [(nameA, readFile lbxWav)] [(nameA, readFile lbxWav)] nameB
      (readFile unknownFar) [] .sliceBounds (by decide) (by decide)⟩


end Lbxtract
